import Mathlib

/-!
Verification of the ProjectSettings core (`src/project_setting.cpp`): the
feature-override resolution index, the virtual-path translator
(`localize_path` / `globalize_path`), the version migrator, the explicit
main-pack branch of `_setup`, the coalesced change notification, and the
ordered property enumeration.

Strings are embedded as `List Char` (`Str`); the Godot `String` operations
used by the source (`begins_with`, `find`, `rfind`, `substr`, `split`,
`replace`, `replace_first`, `path_join`, `simplify_path`, `strip_edges`,
`get_base_dir`) are given as executable Lean functions over `Str`.
The filesystem probed by `DirAccess` is modelled as the list of existing
directories (absolute paths); `change_dir` succeeds exactly on them.
-/

namespace PS

/-- Character-list strings, the shallow embedding of Godot `String`. -/
abbrev Str : Type := List Char

/-- Coerce a Lean string literal to the embedding. -/
def str (s : String) : Str := s.data

/-- Godot `String::begins_with`. -/
def begins_with (s pre : Str) : Bool := pre.isPrefixOf s

/-- Godot `String::split(delim)` for a one-character delimiter: splits on
every occurrence, keeping empty pieces. -/
def splitOnChar (c : Char) : Str → List Str
  | [] => [[]]
  | x :: xs =>
    let r := splitOnChar c xs
    if x = c then [] :: r
    else
      match r with
      | [] => [[x]]
      | h :: t => (x :: h) :: t

/-- Index of the first occurrence of `pat` in `s` (Godot `String::find`,
with `none` for the C++ return value `-1`). -/
def findSub (pat : Str) : Str → Option Nat
  | [] => if pat = [] then some 0 else none
  | x :: xs => if pat.isPrefixOf (x :: xs) then some 0 else (findSub pat xs).map (· + 1)

/-- Index of the first occurrence of character `c`. -/
def revFind (c : Char) : Str → Option Nat
  | [] => none
  | x :: xs => if x = c then some 0 else (revFind c xs).map (· + 1)

/-- Index of the last occurrence of character `c` (Godot `String::rfind`). -/
def rfindChar (c : Char) (s : Str) : Option Nat :=
  match revFind c s.reverse with
  | none => none
  | some i => some (s.length - 1 - i)

/-- Total character count of a segment list. -/
def sumLen (l : List Str) : Nat := (l.map List.length).sum

/-- The scan of `String::replace`, with an explicit recursion-depth
argument so the definition is structurally recursive and kernel-evaluable:
each step consumes at least one character, so a budget of `s.length`
suffices (out of budget the rest is returned unchanged — unreachable from
the wrapper). -/
def replaceAllGo (pat rep : Str) : Nat → Str → Str
  | 0, s => s
  | _ + 1, [] => []
  | fuel + 1, x :: xs =>
    if pat ≠ [] ∧ pat.isPrefixOf (x :: xs) then
      rep ++ replaceAllGo pat rep fuel ((x :: xs).drop pat.length)
    else
      x :: replaceAllGo pat rep fuel xs

/-- Godot `String::replace`: replace every (non-overlapping, left-to-right)
occurrence of `pat` by `rep`. -/
def replaceAll (pat rep : Str) (s : Str) : Str :=
  replaceAllGo pat rep s.length s

/-- Godot `String::replace_first`. -/
def replaceFirst (pat rep : Str) : Str → Str
  | [] => []
  | x :: xs =>
    if pat ≠ [] ∧ pat.isPrefixOf (x :: xs) then
      rep ++ (x :: xs).drop pat.length
    else
      x :: replaceFirst pat rep xs

/-- Whether `pat` occurs as a contiguous substring of `s`. -/
def containsSub (pat s : Str) : Bool := (findSub pat s).isSome

/-- Godot `String::strip_edges`: strip leading and trailing whitespace. -/
def stripEdges (s : Str) : Str :=
  ((s.dropWhile (fun c => c.val ≤ 32)).reverse.dropWhile (fun c => c.val ≤ 32)).reverse

/-- Godot `String::path_join`. -/
def pathJoin (s file : Str) : Str :=
  if s = [] then file
  else if s.getLast? = some '/' ∨ file.headD ' ' = '/' then s ++ file
  else s ++ '/' :: file

/-- Godot `String::get_base_dir` (directory part, up to the last `/`),
restricted to the plain paths the claims exercise. -/
def getBaseDir (s : Str) : Str :=
  match rfindChar '/' s with
  | none => []
  | some i => s.take i

/-- Godot `String::is_absolute_path` for POSIX-style paths. -/
def isAbsolute (s : Str) : Bool := s.headD ' ' = '/'

/-- `is_ascii_alphanumeric_char` from the source. -/
def isAlnumChar (c : Char) : Bool :=
  ('a' ≤ c ∧ c ≤ 'z') ∨ ('A' ≤ c ∧ c ≤ 'Z') ∨ ('0' ≤ c ∧ c ≤ '9')

/-- The protocol-identifier check of `localize_path` (lines 127-141):
true when the path has a `://` at position `p > 0` and every character
before it is ASCII alphanumeric. -/
def hasProtocol (path : Str) : Bool :=
  match findSub (str "://") path with
  | none => false
  | some p => decide (0 < p) && (path.take p).all isAlnumChar

/-- Strip all trailing `/` characters. -/
def stripTrail (s : Str) : Str := (s.reverse.dropWhile (fun c => c = '/')).reverse

/-- Two real paths denote the same location up to a trailing separator. -/
def realEquiv (a b : Str) : Bool := stripTrail a = stripTrail b

/-- C++ `String::operator<`: lexicographic comparison by character code. -/
def strLt : Str → Str → Bool
  | [], [] => false
  | [], _ :: _ => true
  | _ :: _, [] => false
  | a :: as, b :: bs => if a < b then true else if b < a then false else strLt as bs

/-- Resolve `..` segments against the already-emitted segments (accumulator is
kept reversed). Part of the `simplify_path` model. -/
def resolveDots : List Str → List Str → List Str
  | acc, [] => acc.reverse
  | acc, seg :: rest =>
    if seg = str ".." then resolveDots (acc.drop 1) rest
    else resolveDots (seg :: acc) rest

/-- Join path segments with single `/` separators. -/
def joinSegs : List Str → Str
  | [] => []
  | [a] => a
  | a :: b :: t => a ++ '/' :: joinSegs (b :: t)

/-- Modelled from the spec: `String::simplify_path` (external String API used
at the top of `localize_path`): normalizes `\` to `/`, collapses repeated
separators, and resolves `.` and `..` segments. -/
def simplify_path (p : Str) : Str :=
  let s := p.map (fun c => if c = '\\' then '/' else c)
  let abs := isAbsolute s
  let segs := (splitOnChar '/' s).filter (fun seg => decide (seg ≠ [] ∧ seg ≠ str "."))
  let segs2 := resolveDots [] segs
  (if abs then ['/'] else []) ++ joinSegs segs2

/-- Modelled from the spec: `DirAccess::change_dir` / `get_current_dir`
(external filesystem API): the filesystem is the list of existing directories
(absolute paths); changing into `p` succeeds exactly when `p` is one of them,
and the resulting current directory is `p` itself. -/
def changeDir (fs : List Str) (p : Str) : Option Str :=
  if p ∈ fs then some p else none

/-- `Variant::Type` tags for the value kinds the excerpt touches. -/
inductive VType : Type
  | nil | bool | int | float | string | array | dictionary
  deriving DecidableEq, Repr

/-- `PropertyInfo` as far as `_get_property_list` fills it in. -/
structure PropertyInfo : Type where
  type : VType := VType.nil
  name : Str := []
  hint : Nat := 0
  hint_string : Str := []
  usage : Nat := 0

/-- The dynamically-typed `Variant` value. Floats are embedded as exact
rationals (`0.5f` is exactly representable, the only float literal the
excerpt uses). -/
inductive Variant : Type
  | nil : Variant
  | bool : Bool → Variant
  | int : Int → Variant
  | float : Rat → Variant
  | string : Str → Variant
  | array : List Variant → Variant
  | dictionary : List (Variant × Variant) → Variant

/-- `Variant::get_type`. -/
def Variant.get_type : Variant → VType
  | .nil => .nil
  | .bool _ => .bool
  | .int _ => .int
  | .float _ => .float
  | .string _ => .string
  | .array _ => .array
  | .dictionary _ => .dictionary

/-- Modelled from the spec: `Variant` to `String` conversion
(`String(p_value)`, external Variant stringification); the claims only
exercise string-typed values, for which it returns the string itself. -/
def Variant.toStr : Variant → Str
  | .string s => s
  | _ => []

/-- `ProjectSettings::VariantContainer` (value plus metadata flags). -/
structure VariantContainer : Type where
  variant : Variant
  order : Nat
  initial : Variant := Variant.nil
  hide_from_editor : Bool := false
  restart_if_changed : Bool := false
  basic : Bool := false
  internal : Bool := false

/-- The mutable members of `ProjectSettings` that the verified operations
read or write.  `props` (a C++ HashMap) is an association list with unique
keys; `feature_overrides` maps a base name to its `LocalVector` of
`(feature, qualified name)` pairs; `scheduled` and `emitted` count the
deferred `_emit_changed` calls and the delivered `settings_changed` signals
(observation counters for the notification claims); `mq_ok` models
`MessageQueue::get_singleton()` being available with a nonzero buffer. -/
structure State : Type where
  props : List (Str × VariantContainer) := []
  last_order : Nat := 0
  feature_overrides : List (Str × List (Str × Str)) := []
  custom_features : List Str := []
  hidden_prefixes : List Str := []
  custom_prop_info : List (Str × PropertyInfo) := []
  is_changed : Bool := false
  scheduled : Nat := 0
  emitted : Nat := 0
  mq_ok : Bool := true

/-- The pristine state (all registries empty). -/
def initState : State := {}

/-- Association-list lookup keyed on the name. -/
def propsGet (props : List (Str × VariantContainer)) (name : Str) : Option VariantContainer :=
  (props.find? (fun p => decide (p.1 = name))).map (fun p => p.2)

/-- `props.has(name)`. -/
def propsHas (props : List (Str × VariantContainer)) (name : Str) : Bool :=
  (propsGet props name).isSome

/-- `props.erase(name)`. -/
def propsErase (props : List (Str × VariantContainer)) (name : Str) : List (Str × VariantContainer) :=
  props.filter (fun p => decide (p.1 ≠ name))

/-- In-place update `props[p_name].variant = p_value` (order and flags kept). -/
def propsUpdate (props : List (Str × VariantContainer)) (name : Str) (v : Variant) :
    List (Str × VariantContainer) :=
  props.map (fun p => if p.1 = name then (p.1, { p.2 with variant := v }) else p)

/-- Lookup in the feature-override index. -/
def foGet (fo : List (Str × List (Str × Str))) (base : Str) : Option (List (Str × Str)) :=
  (fo.find? (fun p => decide (p.1 = base))).map (fun p => p.2)

/-- Append entries to a base name's override list, creating the (empty) list
first when the base is absent — the net effect of lines 281-285. -/
def foAppend (fo : List (Str × List (Str × Str))) (base : Str) (es : List (Str × Str)) :
    List (Str × List (Str × Str)) :=
  match foGet fo base with
  | some _ => fo.map (fun p => if p.1 = base then (p.1, p.2 ++ es) else p)
  | none => fo ++ [(base, es)]

/-- `RBSet<String> custom_features` insertion. -/
def featInsert (l : List Str) (s : Str) : List Str :=
  if s ∈ l then l else l ++ [s]

/-- The reserved `CoreStringName(_custom_features)` setting name. -/
def _custom_features : Str := str "_custom_features"

/-- `ProjectSettings::_queue_changed` (lines 425-431). -/
def _queue_changed (st : State) : State :=
  if st.is_changed || !st.mq_ok then st
  else { st with is_changed := true, scheduled := st.scheduled + 1 }

/-- `ProjectSettings::_emit_changed` (lines 433-439). -/
def _emit_changed (st : State) : State :=
  if !st.is_changed then st
  else { st with is_changed := false, emitted := st.emitted + 1 }

/-- The feature-overrides block of `_set` (lines 272-288): a dotted name
registers one `(stripped qualifier, full name)` entry per qualifier segment
under the base (the part before the first dot). -/
def addFeatureOverrides (st : State) (name : Str) : State :=
  match findSub (str ".") name with
  | none => st
  | some _ =>
    let s := splitOnChar '.' name
    { st with
      feature_overrides :=
        foAppend st.feature_overrides (s.headD [])
          ((s.drop 1).map (fun seg => (stripEdges seg, name))) }

/-- `ProjectSettings::_set` (lines 246-315).  The `autoload/` and
`global_group/` branches delegate to the autoload / global-group registries,
which the spec excludes as external collaborators; they do not touch
`props`, `feature_overrides`, `custom_features` or `last_order`, so they do
not appear in the state. -/
def _set (st : State) (p_name : Str) (p_value : Variant) : State × Bool :=
  if p_value.get_type = VType.nil then
    let st := { st with props := propsErase st.props p_name }
    (_queue_changed st, true)
  else if p_name = _custom_features then
    let pieces := splitOnChar ',' p_value.toStr
    let st := { st with custom_features := pieces.foldl featInsert st.custom_features }
    (_queue_changed st, true)
  else
    let st := addFeatureOverrides st p_name
    let st :=
      if propsHas st.props p_name then
        { st with props := propsUpdate st.props p_name p_value }
      else
        { st with
          props := st.props ++ [(p_name, { variant := p_value, order := st.last_order })],
          last_order := st.last_order + 1 }
    (_queue_changed st, true)

/-- `ProjectSettings::_get` (lines 317-326): raw lookup, `none` models the
warn-and-return-false path (`NotFound`). -/
def _get (st : State) (p_name : Str) : Option Variant :=
  (propsGet st.props p_name).map (fun c => c.variant)

/-- The override scan loop of `get_setting_with_override` (lines 334-341):
first entry whose feature is active (per the external `OS::has_feature`
oracle) and whose target is present redirects the name; an active entry
with an absent target is passed over. -/
def scanOverrides (active : Str → Bool) (props : List (Str × VariantContainer)) :
    List (Str × Str) → Str → Str
  | [], name => name
  | e :: rest, name =>
    if active e.1 then
      if propsHas props e.2 then e.2 else scanOverrides active props rest name
    else scanOverrides active props rest name

/-- `ProjectSettings::get_setting_with_override` (lines 328-349); `none`
models the warn-and-return-`Variant()` path (`NotFound`). -/
def get_setting_with_override (active : Str → Bool) (st : State) (p_name : Str) :
    Option Variant :=
  let name :=
    match foGet st.feature_overrides p_name with
    | some overrides => scanOverrides active st.props overrides p_name
    | none => p_name
  (propsGet st.props name).map (fun c => c.variant)

/-- The dictionary built at lines 474-476: `deadzone` defaulted to `0.5`
plus the original event list under `events`. -/
def inputAction (events : Variant) : Variant :=
  Variant.dictionary
    [(Variant.string (str "deadzone"), Variant.float (1 / 2)),
     (Variant.string (str "events"), events)]

/-- `ProjectSettings::_convert_to_last_version` (lines 467-478): below
format version 4, every `input/` setting holding a bare array is wrapped
into a dictionary with a `deadzone` of `0.5` and the original array under
`events`. -/
def _convert_to_last_version (p_from_version : Int)
    (props : List (Str × VariantContainer)) : List (Str × VariantContainer) :=
  if p_from_version ≤ 3 then
    props.map (fun p =>
      if begins_with p.1 (str "input/") ∧ p.2.variant.get_type = VType.array then
        (p.1, { p.2 with variant := inputAction p.2.variant })
      else p)
  else props

/-- Run a sequence of `_set` calls (each mutating operation ends in
`_queue_changed`). -/
def runSets (st : State) (ops : List (Str × Variant)) : State :=
  ops.foldl (fun s op => (_set s op.1 op.2).1) st

/-- The insertion-order value a `_set` call hands out, when it inserts a
fresh property (mirrors the branch structure of `_set`). -/
def assignsAt (st : State) (n : Str) (v : Variant) : Option Nat :=
  if v.get_type = VType.nil then none
  else if n = _custom_features then none
  else if propsHas st.props n then none
  else some st.last_order

/-- The insertion-order values handed out along a sequence of `_set` calls,
in call order. -/
def ordersAssigned : State → List (Str × Variant) → List Nat
  | _, [] => []
  | st, op :: ops =>
    match assignsAt st op.1 op.2 with
    | some o => o :: ordersAssigned ((_set st op.1 op.2).1) ops
    | none => ordersAssigned ((_set st op.1 op.2).1) ops

/-- The insertion-order invariant: every stored order is below the counter,
and no two stored properties share an order value. -/
def OrderInv (st : State) : Prop :=
  (∀ p ∈ st.props, p.2.order < st.last_order) ∧
  st.props.Pairwise (fun p q => p.2.order ≠ q.2.order)

/-- The body of `ProjectSettings::localize_path` (lines 120-184), with an
explicit recursion-depth argument so the definition is structurally
recursive and kernel-evaluable.  Each recursive call passes a strictly
shorter path (the parent segment of the simplified path), so starting from
`p_path.length + 1` the `0` case is unreachable (see the wrapper). -/
def localizeGo (rp : Str) (fs : List Str) : Nat → Str → Str
  | 0, _ => []
  | fuel + 1, p_path =>
    let path := simplify_path p_path
    if rp = [] ∨ (isAbsolute path ∧ ¬ begins_with path rp) then path
    else if hasProtocol path then path
    else
      match changeDir fs path with
      | some cwd0 =>
        let cwd := replaceAll (str "\\") (str "/") cwd0
        let res_path := pathJoin rp []
        let cwd2 := pathJoin cwd []
        if ¬ begins_with cwd2 res_path then path
        else replaceFirst res_path (str "res://") cwd2
      | none =>
        match rfindChar '/' path with
        | none => str "res://" ++ path
        | some sep =>
          let parent := path.take sep
          let plocal := localizeGo rp fs fuel parent
          if plocal = [] then []
          else
            let sep2 := if plocal.getLast? = some '/' then sep + 1 else sep
            plocal ++ path.drop sep2

/-- `ProjectSettings::localize_path`, parameterized by the configured
`resource_path` `rp` and the modelled filesystem `fs`. -/
def localize_path (rp : Str) (fs : List Str) (p_path : Str) : Str :=
  localizeGo rp fs (p_path.length + 1) p_path

/-- `ProjectSettings::globalize_path` (lines 229-244), parameterized by the
configured `resource_path` `rp` and the OS user-data dir `ud`. -/
def globalize_path (rp ud : Str) (p_path : Str) : Str :=
  if begins_with p_path (str "res://") then
    if rp ≠ [] then replaceAll (str "res:/") rp p_path
    else replaceAll (str "res://") [] p_path
  else if begins_with p_path (str "user://") then
    if ud ≠ [] then replaceAll (str "user:/") ud p_path
    else replaceAll (str "user://") [] p_path
  else p_path

/-- `Error` codes the setup path returns. -/
inductive Err : Type
  | ok | failed | cantOpen | fileNotFound | parseError
  deriving DecidableEq, Repr

/-- The external collaborators `_setup` calls: the OS resource-dir override,
`_load_resource_pack` success per pack path (`PackedData::add_pack`), and
the settings codec behind `_load_settings_text_or_binary` /
`_load_settings_text`. -/
structure SetupEnv : Type where
  os_resource_dir : Str := []
  packOk : Str → Bool
  loadMain : Str → Str → Err
  loadText : Str → Err

/-- What a `_setup` run did: its returned error, the `resource_path` it
configured, the packs it mounted, the pack locations it probed, and the
override file it loaded (path and the discarded load result). -/
structure SetupResult : Type where
  err : Err
  resource_path : Str
  packsMounted : List Str
  probed : List Str
  overrideLoad : Option (Str × Err)

/-- `ProjectSettings::_setup` (lines 479-502), explicit-main-pack branch.
The executable-derived candidate probing that follows an empty
`p_main_pack` lies outside the excerpt (the source file ends mid-function),
so that branch is left unmodelled (`none`). -/
def setupResourcePath (env : SetupEnv) (rp0 : Str) : Str :=
  if env.os_resource_dir ≠ [] then
    let r := replaceAll (str "\\") (str "/") env.os_resource_dir
    if r ≠ [] ∧ r.getLast? = some '/' then r.dropLast else r
  else rp0

/-- The override-file location probed next to an explicit main pack
(line 499). -/
def ovPath (mp : Str) : Str := pathJoin (getBaseDir mp) (str "override.cfg")

def _setup (env : SetupEnv) (rp0 : Str) (p_main_pack : Str) (p_ignore_override : Bool) :
    Option SetupResult :=
  let rp := setupResourcePath env rp0
  if p_main_pack ≠ [] then
    if ¬ env.packOk p_main_pack then
      some { err := Err.cantOpen, resource_path := rp, packsMounted := [],
             probed := [p_main_pack], overrideLoad := none }
    else
      let err := env.loadMain (str "res://project.godot") (str "res://project.binary")
      let ov :=
        if err = Err.ok ∧ ¬ p_ignore_override then
          some (ovPath p_main_pack, env.loadText (ovPath p_main_pack))
        else none
      some { err := err, resource_path := rp, packsMounted := [p_main_pack],
             probed := [p_main_pack], overrideLoad := ov }
  else none

/-- `_VCSort` (lines 351-358). -/
structure _VCSort : Type where
  name : Str
  type : VType := VType.nil
  order : Nat := 0
  flags : Nat := 0

/-- `_VCSort::operator<` (line 357): order first, name as tie-break. -/
def vcLt (a b : _VCSort) : Bool :=
  if a.order = b.order then strLt a.name b.name else decide (a.order < b.order)

/-- `RBSet<_VCSort>` insertion: ordered insert that keeps the existing
element when an order-and-name-equal one is already present. -/
def rbInsert (x : _VCSort) : List _VCSort → List _VCSort
  | [] => [x]
  | y :: ys =>
    if vcLt x y then x :: y :: ys
    else if vcLt y x then y :: rbInsert x ys
    else y :: ys

def PROPERTY_USAGE_STORAGE : Nat := 2
def PROPERTY_USAGE_EDITOR : Nat := 4
def PROPERTY_USAGE_INTERNAL : Nat := 8
def PROPERTY_USAGE_RESTART_IF_CHANGED : Nat := 2048
def PROPERTY_USAGE_EDITOR_BASIC_SETTING : Nat := 67108864

/-- Lines 372-403: the `_VCSort` record built for a visible property. -/
def mkVC (hidden_prefixes : List Str) (k : Str) (v : VariantContainer) : _VCSort :=
  let internal := v.internal || hidden_prefixes.any (fun f => begins_with k f)
  let flags :=
    if internal then PROPERTY_USAGE_STORAGE
    else PROPERTY_USAGE_EDITOR ||| PROPERTY_USAGE_STORAGE
  let flags := if v.internal then flags ||| PROPERTY_USAGE_INTERNAL else flags
  let flags := if v.basic then flags ||| PROPERTY_USAGE_EDITOR_BASIC_SETTING else flags
  let flags := if v.restart_if_changed then flags ||| PROPERTY_USAGE_RESTART_IF_CHANGED else flags
  { name := k, type := v.variant.get_type, order := v.order, flags := flags }

/-- `custom_prop_info` lookup. -/
def cpiGet (cpi : List (Str × PropertyInfo)) (name : Str) : Option PropertyInfo :=
  (cpi.find? (fun p => decide (p.1 = name))).map (fun p => p.2)

def cpiHas (cpi : List (Str × PropertyInfo)) (name : Str) : Bool :=
  (cpiGet cpi name).isSome

/-- The emission loop of `_get_property_list` (lines 407-422). -/
def emitOne (cpi : List (Str × PropertyInfo)) (e : _VCSort) : PropertyInfo :=
  let pin :=
    match findSub (str ".") e.name with
    | some dot => if ¬ cpiHas cpi e.name then e.name.take dot else e.name
    | none => e.name
  match cpiGet cpi pin with
  | some pi => { pi with name := e.name, usage := e.flags }
  | none => { type := e.type, name := e.name, hint := 0, hint_string := [], usage := e.flags }

/-- One iteration of the collection loop of `_get_property_list`
(lines 365-405): a property hidden from the editor is skipped entirely,
any other is inserted into the ordered set. -/
def vcStep (hidden_prefixes : List Str) (acc : List _VCSort) (p : Str × VariantContainer) :
    List _VCSort :=
  if p.2.hide_from_editor then acc else rbInsert (mkVC hidden_prefixes p.1 p.2) acc

/-- The collection loop of `_get_property_list` (lines 363-405). -/
def buildVCList (st : State) : List _VCSort :=
  st.props.foldl (vcStep st.hidden_prefixes) []

/-- `ProjectSettings::_get_property_list` (lines 360-423). -/
def _get_property_list (st : State) : List PropertyInfo :=
  (buildVCList st).map (emitOne st.custom_prop_info)

/-- The `(insertion order, name)` sort key a listed entry carries: the
stored order of the property it names, with the name as tie-break. -/
def listKey (st : State) (pi : PropertyInfo) : Nat × Str :=
  ((propsGet st.props pi.name).elim 0 (fun c => c.order), pi.name)

/-- Strict lexicographic comparison on `(order, name)` keys. -/
def keyLt (a b : Nat × Str) : Prop :=
  a.1 < b.1 ∨ (a.1 = b.1 ∧ strLt a.2 b.2 = true)

/-! Concrete data used by witnesses and counterexamples. -/

/-- `a.feat1` then `a.feat2` inserted into the pristine store, in order. -/
def stA : State := (_set initState (str "a.feat1") (Variant.int 1)).1

def stB : State := (_set stA (str "a.feat2") (Variant.int 2)).1

/-- Active-feature oracle under which only `feat2` is active. -/
def actFeat2 : Str → Bool := fun f => decide (f = str "feat2")

/-- A migration input: an `input/` action stored as a bare event list, a
setting outside the input namespace, and an `input/` setting that is not a
list. -/
def c5props : List (Str × VariantContainer) :=
  [(str "input/jump", { variant := Variant.array [Variant.int 7], order := 0 }),
   (str "app/name", { variant := Variant.string (str "demo"), order := 1 }),
   (str "input/scale", { variant := Variant.int 3, order := 2 })]

/-- A setup environment whose pack mount always fails. -/
def c6envFail : SetupEnv :=
  { packOk := fun _ => false, loadMain := fun _ _ => Err.ok, loadText := fun _ => Err.ok }

/-- A setup environment that mounts, loads the primary settings, and fails
the override load. -/
def c6envOk : SetupEnv :=
  { packOk := fun _ => true, loadMain := fun _ _ => Err.ok,
    loadText := fun _ => Err.parseError }

/-- A `_set` sequence with inserts, an update and a delete interleaved. -/
def c7ops : List (Str × Variant) :=
  [(str "a", Variant.int 1), (str "b", Variant.int 2), (str "a", Variant.nil),
   (str "c", Variant.int 3), (str "a", Variant.int 4)]

/-- A store with a hidden property and two visible ones, out of order. -/
def c10st : State :=
  { props :=
      [(str "b", { variant := Variant.int 1, order := 2 }),
       (str "secret", { variant := Variant.int 2, order := 0, hide_from_editor := true }),
       (str "a", { variant := Variant.int 3, order := 1 })] }

/-! Helper lemmas. -/

theorem mem_featInsert (l : List Str) (s a : Str) :
    a ∈ featInsert l s ↔ a ∈ l ∨ a = s := by
  unfold featInsert
  split
  · rename_i h
    constructor
    · exact fun ha => Or.inl ha
    · rintro (ha | rfl)
      · exact ha
      · exact h
  · simp

theorem mem_foldl_featInsert_of_mem (pieces : List Str) :
    ∀ (acc : List Str) (a : Str), a ∈ acc → a ∈ pieces.foldl featInsert acc := by
  induction pieces with
  | nil => intro acc a h; simpa using h
  | cons p ps ih =>
    intro acc a h
    exact ih (featInsert acc p) a ((mem_featInsert acc p a).mpr (Or.inl h))

theorem mem_foldl_featInsert_self (pieces : List Str) :
    ∀ (acc : List Str) (a : Str), a ∈ pieces → a ∈ pieces.foldl featInsert acc := by
  induction pieces with
  | nil => intro acc a h; cases h
  | cons p ps ih =>
    intro acc a h
    rcases List.mem_cons.mp h with rfl | h
    · exact mem_foldl_featInsert_of_mem ps (featInsert acc a) a
        ((mem_featInsert acc a a).mpr (Or.inr rfl))
    · exact ih (featInsert acc p) a h

theorem addFO_state (st : State) (n : Str) :
    (addFeatureOverrides st n).props = st.props ∧
    (addFeatureOverrides st n).last_order = st.last_order ∧
    (addFeatureOverrides st n).is_changed = st.is_changed ∧
    (addFeatureOverrides st n).scheduled = st.scheduled ∧
    (addFeatureOverrides st n).mq_ok = st.mq_ok ∧
    (addFeatureOverrides st n).custom_features = st.custom_features ∧
    (addFeatureOverrides st n).emitted = st.emitted := by
  unfold addFeatureOverrides
  split <;> exact ⟨rfl, rfl, rfl, rfl, rfl, rfl, rfl⟩

theorem queue_state (st : State) :
    (_queue_changed st).props = st.props ∧
    (_queue_changed st).feature_overrides = st.feature_overrides ∧
    (_queue_changed st).custom_features = st.custom_features ∧
    (_queue_changed st).last_order = st.last_order ∧
    (_queue_changed st).emitted = st.emitted := by
  unfold _queue_changed
  split <;> exact ⟨rfl, rfl, rfl, rfl, rfl⟩

theorem propsGet_of_has_false (props : List (Str × VariantContainer)) (n : Str)
    (h : propsHas props n = false) : propsGet props n = none := by
  unfold propsHas at h
  cases hg : propsGet props n with
  | none => rfl
  | some c => rw [hg] at h; simp at h

theorem queue_effect (s : State) :
    (s.is_changed = true → _queue_changed s = s) ∧
    (s.is_changed = false → s.mq_ok = true →
      (_queue_changed s).is_changed = true ∧ (_queue_changed s).scheduled = s.scheduled + 1) ∧
    (s.is_changed = false → s.mq_ok = false → _queue_changed s = s) := by
  refine ⟨?_, ?_, ?_⟩
  · intro h; unfold _queue_changed; rw [if_pos]; simp [h]
  · intro h1 h2; unfold _queue_changed; rw [if_neg]
    · exact ⟨rfl, rfl⟩
    · simp [h1, h2]
  · intro h1 h2; unfold _queue_changed; rw [if_pos]; simp [h1, h2]

theorem set_step_notify (st : State) (n : Str) (v : Variant) :
    ((_set st n v).1.is_changed = st.is_changed ∧ (_set st n v).1.scheduled = st.scheduled) ∨
    (st.is_changed = false ∧ st.mq_ok = true ∧ (_set st n v).1.is_changed = true ∧
      (_set st n v).1.scheduled = st.scheduled + 1) := by
  have key : ∀ s : State, s.is_changed = st.is_changed → s.scheduled = st.scheduled →
      s.mq_ok = st.mq_ok →
      ((_queue_changed s).is_changed = st.is_changed ∧
        (_queue_changed s).scheduled = st.scheduled) ∨
      (st.is_changed = false ∧ st.mq_ok = true ∧ (_queue_changed s).is_changed = true ∧
        (_queue_changed s).scheduled = st.scheduled + 1) := by
    intro s h1 h2 h3
    by_cases hc : s.is_changed = true
    · left
      rw [(queue_effect s).1 hc]
      exact ⟨h1, h2⟩
    · rw [Bool.not_eq_true] at hc
      by_cases hm : s.mq_ok = true
      · right
        refine ⟨h1 ▸ hc, h3 ▸ hm, ((queue_effect s).2.1 hc hm).1, ?_⟩
        rw [((queue_effect s).2.1 hc hm).2, h2]
      · rw [Bool.not_eq_true] at hm
        left
        rw [(queue_effect s).2.2 hc hm]
        exact ⟨h1, h2⟩
  unfold _set
  split
  · exact key _ rfl rfl rfl
  · split
    · exact key _ rfl rfl rfl
    · dsimp only
      split
      · exact key _ (addFO_state st n).2.2.1 (addFO_state st n).2.2.2.1
          (addFO_state st n).2.2.2.2.1
      · exact key _ (addFO_state st n).2.2.1 (addFO_state st n).2.2.2.1
          (addFO_state st n).2.2.2.2.1

theorem runSets_sched_le (ops : List (Str × Variant)) :
    ∀ (st : State) (s0 : Nat),
      st.scheduled ≤ s0 + (if st.is_changed = true then 1 else 0) →
      (runSets st ops).scheduled ≤ s0 + 1 := by
  induction ops with
  | nil =>
    intro st s0 h
    unfold runSets
    simp only [List.foldl_nil]
    refine le_trans h ?_
    split <;> omega
  | cons op ops ih =>
    intro st s0 h
    have hstep : runSets st (op :: ops) = runSets ((_set st op.1 op.2).1) ops := by
      unfold runSets; rw [List.foldl_cons]
    rw [hstep]
    apply ih
    rcases set_step_notify st op.1 op.2 with ⟨h1, h2⟩ | ⟨hf, _, h1, h2⟩
    · rw [h1, h2]; exact h
    · rw [h1, h2]
      rw [hf] at h
      simp at h ⊢
      omega

/-! Claim theorems. -/

/-- C5: when the stored format version is at most 3, the migration rewrites
every `input/` setting whose value is a bare array into a dictionary with
`deadzone` `0.5` and `events` the original array; every setting outside the
input namespace, and every `input/` setting whose value is not an array, is
left unchanged; the step is total and keeps every entry (it never fails). -/
theorem c5_version_migration (v : Int) (props : List (Str × VariantContainer))
    (hv : v ≤ 3) :
    (_convert_to_last_version v props).length = props.length ∧
    ∀ (i : Nat) (p : Str × VariantContainer), props[i]? = some p →
      ((begins_with p.1 (str "input/") = true → p.2.variant.get_type = VType.array →
          (_convert_to_last_version v props)[i]? =
            some (p.1, { p.2 with variant := inputAction p.2.variant })) ∧
       (begins_with p.1 (str "input/") = true → p.2.variant.get_type ≠ VType.array →
          (_convert_to_last_version v props)[i]? = some p) ∧
       (begins_with p.1 (str "input/") = false →
          (_convert_to_last_version v props)[i]? = some p)) := by
  unfold _convert_to_last_version
  rw [if_pos hv]
  refine ⟨by simp, ?_⟩
  intro i p hp
  have hm : (props.map (fun p =>
      if begins_with p.1 (str "input/") ∧ p.2.variant.get_type = VType.array then
        (p.1, { p.2 with variant := inputAction p.2.variant })
      else p))[i]? = some (if begins_with p.1 (str "input/") ∧ p.2.variant.get_type = VType.array then
        (p.1, { p.2 with variant := inputAction p.2.variant })
      else p) := by
    rw [List.getElem?_map, hp]
    rfl
  refine ⟨?_, ?_, ?_⟩
  · intro hb ha
    rw [hm, if_pos ⟨hb, ha⟩]
  · intro hb ha
    rw [hm, if_neg (fun hc => ha hc.2)]
  · intro hb
    rw [hm, if_neg (fun hc => by rw [hb] at hc; exact Bool.false_ne_true hc.1)]

theorem c5_version_migration_witness :
    (_convert_to_last_version 3 c5props).length = c5props.length ∧
    (_convert_to_last_version 3 c5props)[0]? =
      some (str "input/jump",
        { variant := inputAction (Variant.array [Variant.int 7]), order := 0 }) ∧
    (_convert_to_last_version 3 c5props)[1]? =
      some (str "app/name", { variant := Variant.string (str "demo"), order := 1 }) ∧
    (_convert_to_last_version 3 c5props)[2]? =
      some (str "input/scale", { variant := Variant.int 3, order := 2 }) := by
  have h := c5_version_migration 3 c5props (by decide)
  refine ⟨h.1, ?_, ?_, ?_⟩
  · exact (h.2 0 _ rfl).1 rfl rfl
  · exact (h.2 1 _ rfl).2.2 rfl
  · exact (h.2 2 _ rfl).2.1 rfl (by decide)

/-- C6: with an explicit main pack, `_setup` probes only that location; a
mount failure yields `CannotOpen` with nothing mounted and no fallback
probed; on mount plus primary-load success (overrides not ignored) the
override file next to the pack is loaded, and the returned error is the
primary load result no matter what the override load returns. -/
theorem c6_explicit_pack (env : SetupEnv) (rp0 mp : Str) (ig : Bool) (hmp : mp ≠ []) :
    (env.packOk mp = false →
      _setup env rp0 mp ig =
        some { err := Err.cantOpen, resource_path := setupResourcePath env rp0,
               packsMounted := [], probed := [mp], overrideLoad := none }) ∧
    (env.packOk mp = true → ig = false →
      env.loadMain (str "res://project.godot") (str "res://project.binary") = Err.ok →
      _setup env rp0 mp ig =
        some { err := Err.ok, resource_path := setupResourcePath env rp0,
               packsMounted := [mp], probed := [mp],
               overrideLoad := some (ovPath mp, env.loadText (ovPath mp)) }) ∧
    (env.packOk mp = true →
      (_setup env rp0 mp ig).map SetupResult.err =
        some (env.loadMain (str "res://project.godot") (str "res://project.binary"))) ∧
    (∀ f g : Str → Err,
      (_setup { env with loadText := f } rp0 mp ig).map SetupResult.err =
        (_setup { env with loadText := g } rp0 mp ig).map SetupResult.err) := by
  refine ⟨?_, ?_, ?_, ?_⟩
  · intro hp
    unfold _setup
    rw [if_pos hmp, if_pos (by simp [hp])]
  · intro hp hig hload
    unfold _setup
    rw [if_pos hmp, if_neg (by simp [hp])]
    simp [hload, hig]
  · intro hp
    unfold _setup
    rw [if_pos hmp, if_neg (by simp [hp])]
    rfl
  · intro f g
    unfold _setup
    by_cases hp : env.packOk mp = true
    · rw [if_pos hmp, if_pos hmp, if_neg (by simp [hp]), if_neg (by simp [hp])]
      rfl
    · rw [Bool.not_eq_true] at hp
      rw [if_pos hmp, if_pos hmp, if_pos (by simp [hp]), if_pos (by simp [hp])]
      rfl

theorem c6_explicit_pack_witness :
    _setup c6envFail [] (str "/packs/game.pck") false =
      some { err := Err.cantOpen, resource_path := setupResourcePath c6envFail [],
             packsMounted := [], probed := [str "/packs/game.pck"],
             overrideLoad := none } ∧
    (_setup c6envOk [] (str "/packs/game.pck") false).map SetupResult.err =
      some Err.ok := by
  refine ⟨?_, ?_⟩
  · exact (c6_explicit_pack c6envFail [] (str "/packs/game.pck") false (by decide)).1 rfl
  · exact (c6_explicit_pack c6envOk [] (str "/packs/game.pck") false (by decide)).2.2.1 rfl

/-- C8: the changed notification is coalesced: a queue request with the
pending flag already set does nothing; with the flag clear (and the message
queue available) it sets the flag and schedules exactly one delivery; any
sequence of mutating `_set` calls from a delivered state schedules at most
one delivery; delivery clears the flag and emits exactly one signal, and
does nothing when the flag is clear. -/
theorem c8_coalesced_notification :
    (∀ st : State, st.is_changed = true → _queue_changed st = st) ∧
    (∀ st : State, st.is_changed = false → st.mq_ok = true →
      (_queue_changed st).is_changed = true ∧
      (_queue_changed st).scheduled = st.scheduled + 1) ∧
    (∀ (st : State) (ops : List (Str × Variant)), st.is_changed = false →
      (runSets st ops).scheduled ≤ st.scheduled + 1) ∧
    (∀ st : State, st.is_changed = true →
      (_emit_changed st).is_changed = false ∧
      (_emit_changed st).emitted = st.emitted + 1 ∧
      (_emit_changed st).scheduled = st.scheduled) ∧
    (∀ st : State, st.is_changed = false → _emit_changed st = st) := by
  refine ⟨?_, ?_, ?_, ?_, ?_⟩
  · intro st h; exact (queue_effect st).1 h
  · intro st h1 h2; exact (queue_effect st).2.1 h1 h2
  · intro st ops h
    exact runSets_sched_le ops st st.scheduled (by simp [h])
  · intro st h
    unfold _emit_changed
    rw [if_neg (by simp [h])]
    exact ⟨rfl, rfl, rfl⟩
  · intro st h
    unfold _emit_changed
    rw [if_pos (by simp [h])]

theorem c8_coalesced_notification_witness :
    _queue_changed { initState with is_changed := true } =
      { initState with is_changed := true } ∧
    (_queue_changed initState).scheduled = initState.scheduled + 1 ∧
    (runSets initState [(str "a", Variant.int 1), (str "b", Variant.int 2)]).scheduled ≤
      initState.scheduled + 1 ∧
    (_emit_changed { initState with is_changed := true }).emitted = initState.emitted + 1 ∧
    _emit_changed initState = initState := by
  have h := c8_coalesced_notification
  exact ⟨h.1 _ rfl, (h.2.1 _ rfl rfl).2, h.2.2.1 _ _ rfl, (h.2.2.2.1 _ rfl).2.1,
    h.2.2.2.2 _ rfl⟩

/-- C9: setting the reserved `_custom_features` name splits the string value
on commas into the process-wide custom feature set, queues a changed
notification and returns success, while creating no property-store entry and
no override entries; a raw get of the name afterwards still fails. -/
theorem c9_custom_features (st : State) (s : Str) :
    (_set st _custom_features (Variant.string s)).2 = true ∧
    (_set st _custom_features (Variant.string s)).1.props = st.props ∧
    (_set st _custom_features (Variant.string s)).1.feature_overrides =
      st.feature_overrides ∧
    (_set st _custom_features (Variant.string s)).1.custom_features =
      (splitOnChar ',' s).foldl featInsert st.custom_features ∧
    (∀ piece ∈ splitOnChar ',' s,
      piece ∈ (_set st _custom_features (Variant.string s)).1.custom_features) ∧
    (propsHas st.props _custom_features = false →
      _get (_set st _custom_features (Variant.string s)).1 _custom_features = none) ∧
    (st.is_changed = false → st.mq_ok = true →
      (_set st _custom_features (Variant.string s)).1.is_changed = true ∧
      (_set st _custom_features (Variant.string s)).1.scheduled = st.scheduled + 1) := by
  have hset : _set st _custom_features (Variant.string s) =
      (_queue_changed
        { st with custom_features := (splitOnChar ',' s).foldl featInsert st.custom_features },
       true) := by
    unfold _set
    rw [if_neg (by simp [Variant.get_type]), if_pos rfl]
    rfl
  rw [hset]
  have hq := queue_state
    { st with custom_features := (splitOnChar ',' s).foldl featInsert st.custom_features }
  refine ⟨rfl, hq.1, hq.2.1, hq.2.2.1, ?_, ?_, ?_⟩
  · intro piece hpiece
    rw [hq.2.2.1]
    exact mem_foldl_featInsert_self _ _ _ hpiece
  · intro h
    unfold _get
    rw [hq.1]
    rw [propsGet_of_has_false st.props _custom_features h]
    rfl
  · intro h1 h2
    exact (queue_effect _).2.1 h1 h2

theorem c9_custom_features_witness :
    (_set initState _custom_features (Variant.string (str "f1,f2"))).2 = true ∧
    (_set initState _custom_features (Variant.string (str "f1,f2"))).1.props =
      initState.props ∧
    _get (_set initState _custom_features (Variant.string (str "f1,f2"))).1
      _custom_features = none ∧
    (_set initState _custom_features (Variant.string (str "f1,f2"))).1.scheduled =
      initState.scheduled + 1 := by
  have h := c9_custom_features initState (str "f1,f2")
  exact ⟨h.1, h.2.1, h.2.2.2.2.2.1 rfl, (h.2.2.2.2.2.2 rfl rfl).2⟩

theorem set_shape (st : State) (n : Str) (v : Variant) :
    (v.get_type = VType.nil →
      (_set st n v).1.props = propsErase st.props n ∧
      (_set st n v).1.last_order = st.last_order) ∧
    (v.get_type ≠ VType.nil → n = _custom_features →
      (_set st n v).1.props = st.props ∧
      (_set st n v).1.last_order = st.last_order) ∧
    (v.get_type ≠ VType.nil → n ≠ _custom_features → propsHas st.props n = true →
      (_set st n v).1.props = propsUpdate st.props n v ∧
      (_set st n v).1.last_order = st.last_order) ∧
    (v.get_type ≠ VType.nil → n ≠ _custom_features → propsHas st.props n = false →
      (_set st n v).1.props = st.props ++ [(n, { variant := v, order := st.last_order })] ∧
      (_set st n v).1.last_order = st.last_order + 1) := by
  refine ⟨?_, ?_, ?_, ?_⟩
  · intro h
    unfold _set
    rw [if_pos h]
    exact ⟨(queue_state _).1, (queue_state _).2.2.2.1⟩
  · intro h1 h2
    unfold _set
    rw [if_neg h1, if_pos h2]
    exact ⟨(queue_state _).1, (queue_state _).2.2.2.1⟩
  · intro h1 h2 h3
    unfold _set
    rw [if_neg h1, if_neg h2]
    dsimp only
    rw [if_pos (show propsHas (addFeatureOverrides st n).props n = true by
      rw [(addFO_state st n).1]; exact h3)]
    constructor
    · rw [(queue_state _).1]
      show propsUpdate (addFeatureOverrides st n).props n v = propsUpdate st.props n v
      rw [(addFO_state st n).1]
    · rw [(queue_state _).2.2.2.1]
      exact (addFO_state st n).2.1
  · intro h1 h2 h3
    unfold _set
    rw [if_neg h1, if_neg h2]
    dsimp only
    rw [if_neg (show ¬ propsHas (addFeatureOverrides st n).props n = true by
      rw [(addFO_state st n).1]; simp [h3])]
    constructor
    · rw [(queue_state _).1]
      show (addFeatureOverrides st n).props ++
          [(n, { variant := v, order := (addFeatureOverrides st n).last_order })] =
        st.props ++ [(n, { variant := v, order := st.last_order })]
      rw [(addFO_state st n).1, (addFO_state st n).2.1]
    · rw [(queue_state _).2.2.2.1]
      show (addFeatureOverrides st n).last_order + 1 = st.last_order + 1
      rw [(addFO_state st n).2.1]

theorem set_last_order_ge (st : State) (n : Str) (v : Variant) :
    st.last_order ≤ (_set st n v).1.last_order := by
  by_cases h1 : v.get_type = VType.nil
  · rw [((set_shape st n v).1 h1).2]
  · by_cases h2 : n = _custom_features
    · rw [((set_shape st n v).2.1 h1 h2).2]
    · by_cases h3 : propsHas st.props n = true
      · rw [((set_shape st n v).2.2.1 h1 h2 h3).2]
      · rw [((set_shape st n v).2.2.2 h1 h2 (by simpa using h3)).2]
        omega

theorem assignsAt_some (st : State) (n : Str) (v : Variant) (o : Nat)
    (h : assignsAt st n v = some o) :
    o = st.last_order ∧ (_set st n v).1.last_order = st.last_order + 1 := by
  unfold assignsAt at h
  split_ifs at h with h1 h2 h3
  all_goals simp at h
  exact ⟨h.symm, ((set_shape st n v).2.2.2 h1 h2 (by simpa using h3)).2⟩

theorem ordersAssigned_lb (ops : List (Str × Variant)) :
    ∀ (st : State) (o : Nat), o ∈ ordersAssigned st ops → st.last_order ≤ o := by
  induction ops with
  | nil => intro st o h; cases h
  | cons op ops ih =>
    intro st o h
    unfold ordersAssigned at h
    cases ha : assignsAt st op.1 op.2 with
    | some o2 =>
      rw [ha] at h
      rcases List.mem_cons.mp h with rfl | h2
      · rw [(assignsAt_some st op.1 op.2 o ha).1]
      · have hlb := ih _ _ h2
        have := (assignsAt_some st op.1 op.2 o2 ha).2
        omega
    | none =>
      rw [ha] at h
      exact le_trans (set_last_order_ge st op.1 op.2) (ih _ _ h)

theorem ordersAssigned_pairwise (ops : List (Str × Variant)) :
    ∀ st : State, List.Pairwise (fun a b => a < b) (ordersAssigned st ops) := by
  induction ops with
  | nil => intro st; unfold ordersAssigned; exact List.Pairwise.nil
  | cons op ops ih =>
    intro st
    unfold ordersAssigned
    cases ha : assignsAt st op.1 op.2 with
    | none => exact ih _
    | some o =>
      refine List.Pairwise.cons ?_ (ih _)
      intro o2 ho2
      have hlb := ordersAssigned_lb ops _ o2 ho2
      have hs := assignsAt_some st op.1 op.2 o ha
      omega

theorem propsUpdate_entry_key (n : Str) (v : Variant) (q : Str × VariantContainer) :
    (if q.1 = n then (q.1, { q.2 with variant := v }) else q).1 = q.1 := by
  split <;> rfl

theorem propsUpdate_entry_order (n : Str) (v : Variant) (q : Str × VariantContainer) :
    (if q.1 = n then (q.1, { q.2 with variant := v }) else q).2.order = q.2.order := by
  split <;> rfl

theorem propsGet_update_order (props : List (Str × VariantContainer)) (n : Str) (v : Variant) :
    (propsGet (propsUpdate props n v) n).map (fun c => c.order) =
      (propsGet props n).map (fun c => c.order) := by
  induction props with
  | nil => rfl
  | cons q rest ih =>
    show (propsGet ((if q.1 = n then (q.1, { q.2 with variant := v }) else q) ::
        propsUpdate rest n v) n).map (fun c => c.order) =
      (propsGet (q :: rest) n).map (fun c => c.order)
    unfold propsGet
    by_cases hq : q.1 = n
    · rw [List.find?_cons_of_pos _ (by simp [propsUpdate_entry_key, hq]),
        List.find?_cons_of_pos _ (by simp [hq])]
      simp [hq]
    · rw [List.find?_cons_of_neg _ (by simp [propsUpdate_entry_key, hq]),
        List.find?_cons_of_neg _ (by simp [hq])]
      exact ih

/-- C7: insertion orders are fresh and strictly increasing for the process
lifetime: the pristine store satisfies the order invariant and every `_set`
preserves it; a `_set` that inserts hands out an order strictly greater than
every stored one; updating an existing setting leaves its order unchanged;
and along any `_set` sequence (deletes and updates included) the orders
handed out are pairwise strictly increasing, so none is ever reused. -/
theorem c7_insertion_orders :
    OrderInv initState ∧
    (∀ (st : State) (n : Str) (v : Variant), OrderInv st → OrderInv ((_set st n v).1)) ∧
    (∀ (st : State) (n : Str) (v : Variant) (o : Nat), OrderInv st →
      assignsAt st n v = some o → ∀ p ∈ st.props, p.2.order < o) ∧
    (∀ (st : State) (n : Str) (v : Variant), v.get_type ≠ VType.nil →
      n ≠ _custom_features → propsHas st.props n = true →
      (propsGet (_set st n v).1.props n).map (fun c => c.order) =
        (propsGet st.props n).map (fun c => c.order)) ∧
    (∀ (st : State) (ops : List (Str × Variant)),
      List.Pairwise (fun a b => a < b) (ordersAssigned st ops)) := by
  refine ⟨?_, ?_, ?_, ?_, ?_⟩
  · refine ⟨?_, ?_⟩
    · intro p hp
      simp [initState] at hp
    · simp [initState]
  · intro st n v hinv
    by_cases h1 : v.get_type = VType.nil
    · obtain ⟨hp, ho⟩ := (set_shape st n v).1 h1
      constructor
      · intro p hmem
        rw [hp] at hmem
        rw [ho]
        exact hinv.1 p (List.mem_of_mem_filter hmem)
      · rw [hp]
        exact hinv.2.filter _
    · by_cases h2 : n = _custom_features
      · obtain ⟨hp, ho⟩ := (set_shape st n v).2.1 h1 h2
        rw [OrderInv, hp, ho]
        exact hinv
      · by_cases h3 : propsHas st.props n = true
        · obtain ⟨hp, ho⟩ := (set_shape st n v).2.2.1 h1 h2 h3
          constructor
          · intro p hmem
            rw [hp] at hmem
            rw [ho]
            obtain ⟨q, hq, rfl⟩ := List.mem_map.mp hmem
            rw [propsUpdate_entry_order]
            exact hinv.1 q hq
          · rw [hp]
            exact hinv.2.map _ (fun a b hab => by
              rw [propsUpdate_entry_order, propsUpdate_entry_order]; exact hab)
        · obtain ⟨hp, ho⟩ := (set_shape st n v).2.2.2 h1 h2 (by simpa using h3)
          constructor
          · intro p hmem
            rw [hp] at hmem
            rw [ho]
            rcases List.mem_append.mp hmem with hm | hm
            · exact Nat.lt_succ_of_lt (hinv.1 p hm)
            · rcases List.mem_singleton.mp hm with rfl
              exact Nat.lt_succ_self _
          · rw [hp]
            rw [List.pairwise_append]
            refine ⟨hinv.2, List.pairwise_singleton _ _, ?_⟩
            intro a ha b hb
            rcases List.mem_singleton.mp hb with rfl
            exact Nat.ne_of_lt (hinv.1 a ha)
  · intro st n v o hinv ha p hp
    rw [(assignsAt_some st n v o ha).1]
    exact hinv.1 p hp
  · intro st n v h1 h2 h3
    rw [((set_shape st n v).2.2.1 h1 h2 h3).1]
    exact propsGet_update_order st.props n v
  · intro st ops
    exact ordersAssigned_pairwise ops st

theorem c7_insertion_orders_witness :
    OrderInv initState ∧
    OrderInv stB ∧
    List.Pairwise (fun a b => a < b) (ordersAssigned initState c7ops) ∧
    (propsGet (_set stB (str "a.feat1") (Variant.int 9)).1.props (str "a.feat1")).map
        (fun c => c.order) =
      (propsGet stB.props (str "a.feat1")).map (fun c => c.order) := by
  have h := c7_insertion_orders
  exact ⟨h.1, h.2.1 _ _ _ (h.2.1 _ _ _ h.1), h.2.2.2.2 initState c7ops,
    h.2.2.2.1 stB (str "a.feat1") (Variant.int 9) (by decide) (by decide) (by decide)⟩

theorem scanOverrides_nil (active : Str → Bool) (props : List (Str × VariantContainer))
    (b : Str) : scanOverrides active props [] b = b := rfl

theorem scanOverrides_cons (active : Str → Bool) (props : List (Str × VariantContainer))
    (x : Str × Str) (xs : List (Str × Str)) (b : Str) :
    scanOverrides active props (x :: xs) b =
      if active x.1 = true then
        (if propsHas props x.2 = true then x.2 else scanOverrides active props xs b)
      else scanOverrides active props xs b := rfl

theorem scanOverrides_first (active : Str → Bool) (props : List (Str × VariantContainer))
    (l1 : List (Str × Str)) :
    ∀ (e : Str × Str) (l2 : List (Str × Str)) (name : Str),
      (∀ x ∈ l1, active x.1 = false ∨ propsHas props x.2 = false) →
      active e.1 = true → propsHas props e.2 = true →
      scanOverrides active props (l1 ++ e :: l2) name = e.2 := by
  induction l1 with
  | nil =>
    intro e l2 name _ hact hhas
    rw [List.nil_append]
    unfold scanOverrides
    rw [if_pos hact, if_pos hhas]
  | cons x xs ih =>
    intro e l2 name hfail hact hhas
    rw [List.cons_append]
    unfold scanOverrides
    rcases hfail x (List.mem_cons_self x xs) with hx | hx
    · rw [if_neg (by simp [hx])]
      exact ih e l2 name (fun y hy => hfail y (List.mem_cons_of_mem _ hy)) hact hhas
    · by_cases hax : active x.1 = true
      · rw [if_pos hax, if_neg (by simp [hx])]
        exact ih e l2 name (fun y hy => hfail y (List.mem_cons_of_mem _ hy)) hact hhas
      · rw [if_neg hax]
        exact ih e l2 name (fun y hy => hfail y (List.mem_cons_of_mem _ hy)) hact hhas

theorem scanOverrides_none (active : Str → Bool) (props : List (Str × VariantContainer))
    (l : List (Str × Str)) :
    ∀ name : Str, (∀ x ∈ l, active x.1 = false ∨ propsHas props x.2 = false) →
      scanOverrides active props l name = name := by
  induction l with
  | nil => intro name _; rfl
  | cons x xs ih =>
    intro name hfail
    unfold scanOverrides
    rcases hfail x (List.mem_cons_self x xs) with hx | hx
    · rw [if_neg (by simp [hx])]
      exact ih name (fun y hy => hfail y (List.mem_cons_of_mem _ hy))
    · by_cases hax : active x.1 = true
      · rw [if_pos hax, if_neg (by simp [hx])]
        exact ih name (fun y hy => hfail y (List.mem_cons_of_mem _ hy))
      · rw [if_neg hax]
        exact ih name (fun y hy => hfail y (List.mem_cons_of_mem _ hy))

theorem scanOverrides_skip (active : Str → Bool) (props : List (Str × VariantContainer))
    (t : Str) (hmiss : propsHas props t = false) :
    ∀ (l : List (Str × Str)) (b : Str),
      scanOverrides active props l b =
        scanOverrides active props (l.filter (fun x => decide (x.2 ≠ t))) b := by
  intro l
  induction l with
  | nil => intro b; rfl
  | cons x xs ih =>
    intro b
    by_cases hx : x.2 = t
    · have hdrop : (x :: xs).filter (fun x => decide (x.2 ≠ t)) =
          xs.filter (fun x => decide (x.2 ≠ t)) := by
        simp [List.filter_cons, hx]
      rw [hdrop, scanOverrides_cons]
      by_cases ha : active x.1 = true
      · rw [if_pos ha, if_neg (by rw [hx]; simp [hmiss])]
        exact ih b
      · rw [if_neg ha]
        exact ih b
    · have hkeep : (x :: xs).filter (fun x => decide (x.2 ≠ t)) =
          x :: xs.filter (fun x => decide (x.2 ≠ t)) := by
        simp [List.filter_cons, hx]
      rw [hkeep, scanOverrides_cons, scanOverrides_cons]
      by_cases ha : active x.1 = true
      · by_cases hp : propsHas props x.2 = true
        · rw [if_pos ha, if_pos hp, if_pos ha, if_pos hp]
        · rw [if_pos ha, if_neg hp, if_pos ha, if_neg hp]
          exact ih b
      · rw [if_neg ha, if_neg ha]
        exact ih b

theorem scanOverrides_result (active : Str → Bool) (props : List (Str × VariantContainer))
    (l : List (Str × Str)) :
    ∀ b : Str, scanOverrides active props l b = b ∨
      propsHas props (scanOverrides active props l b) = true := by
  induction l with
  | nil => intro b; exact Or.inl rfl
  | cons x xs ih =>
    intro b
    unfold scanOverrides
    by_cases ha : active x.1 = true
    · by_cases hp : propsHas props x.2 = true
      · rw [if_pos ha, if_pos hp]
        exact Or.inr hp
      · rw [if_pos ha, if_neg hp]
        exact ih b
    · rw [if_neg ha]
      exact ih b

theorem propsGet_erase_self (props : List (Str × VariantContainer)) (n : Str) :
    propsGet (propsErase props n) n = none := by
  induction props with
  | nil => rfl
  | cons q rest ih =>
    unfold propsErase at ih ⊢
    by_cases hq : q.1 = n
    · rw [List.filter_cons_of_neg (by simp [hq])]
      exact ih
    · rw [List.filter_cons_of_pos (by simp [hq])]
      unfold propsGet at ih ⊢
      rw [List.find?_cons_of_neg _ (by simp [hq])]
      exact ih

/-- C1: resolution scans a base name's override entries in the insertion
order of the settings that produced them, returning the stored value of the
first entry whose feature is active and whose target is present; an active
entry with an absent target is skipped; with no matching entry the raw
unqualified value is returned.  With `a.feat1` then `a.feat2` inserted in
that order and only `feat2` active, `resolve("a")` returns `a.feat2`'s
value. -/
theorem c1_override_resolution :
    (∀ (active : Str → Bool) (st : State) (p_name : Str) (l1 l2 : List (Str × Str))
        (e : Str × Str),
      foGet st.feature_overrides p_name = some (l1 ++ e :: l2) →
      (∀ x ∈ l1, active x.1 = false ∨ propsHas st.props x.2 = false) →
      active e.1 = true → propsHas st.props e.2 = true →
      get_setting_with_override active st p_name =
        (propsGet st.props e.2).map (fun c => c.variant) ∧
      ((propsGet st.props e.2).map (fun c => c.variant)).isSome = true) ∧
    (∀ (active : Str → Bool) (st : State) (p_name : Str) (l : List (Str × Str)),
      foGet st.feature_overrides p_name = some l →
      (∀ x ∈ l, active x.1 = false ∨ propsHas st.props x.2 = false) →
      get_setting_with_override active st p_name = _get st p_name) ∧
    get_setting_with_override actFeat2 stB (str "a") = some (Variant.int 2) := by
  refine ⟨?_, ?_, ?_⟩
  · intro active st p_name l1 l2 e hfo hfail hact hhas
    constructor
    · unfold get_setting_with_override
      rw [hfo]
      dsimp only
      rw [scanOverrides_first active st.props l1 e l2 p_name hfail hact hhas]
    · unfold propsHas at hhas
      obtain ⟨c, hc⟩ := Option.isSome_iff_exists.mp hhas
      rw [hc]
      rfl
  · intro active st p_name l hfo hfail
    unfold get_setting_with_override _get
    rw [hfo]
    dsimp only
    rw [scanOverrides_none active st.props l p_name hfail]
  · rfl

theorem c1_override_resolution_witness :
    get_setting_with_override actFeat2 stB (str "a") =
      (propsGet stB.props (str "a.feat2")).map (fun c => c.variant) ∧
    ((propsGet stB.props (str "a.feat2")).map (fun c => c.variant)).isSome = true := by
  exact c1_override_resolution.1 actFeat2 stB (str "a")
    [(str "feat1", str "a.feat1")] [] (str "feat2", str "a.feat2")
    rfl (by decide) (by decide) (by decide)

/-- C2: assigning the nil sentinel removes the setting from the property
store while leaving the override index untouched; any override entry whose
target equals the removed setting is then skipped during resolution
(scanning a list is the same as scanning it with those entries filtered
out); resolution on a base still present always yields a value, and yields
`NotFound` only when the unqualified name is itself absent. -/
theorem c2_removal (st : State) (name : Str) :
    propsHas (_set st name Variant.nil).1.props name = false ∧
    (_set st name Variant.nil).1.feature_overrides = st.feature_overrides ∧
    (∀ (active : Str → Bool) (l : List (Str × Str)) (b : Str),
      scanOverrides active (_set st name Variant.nil).1.props l b =
        scanOverrides active (_set st name Variant.nil).1.props
          (l.filter (fun x => decide (x.2 ≠ name))) b) ∧
    (∀ (active : Str → Bool) (b : Str),
      propsHas (_set st name Variant.nil).1.props b = true →
      (get_setting_with_override active (_set st name Variant.nil).1 b).isSome = true) ∧
    (∀ (active : Str → Bool) (b : Str),
      get_setting_with_override active (_set st name Variant.nil).1 b = none →
      propsHas (_set st name Variant.nil).1.props b = false) := by
  have hp : (_set st name Variant.nil).1.props = propsErase st.props name :=
    ((set_shape st name Variant.nil).1 rfl).1
  have hmiss : propsHas (_set st name Variant.nil).1.props name = false := by
    rw [hp]
    unfold propsHas
    rw [propsGet_erase_self]
    rfl
  have hsome : ∀ (active : Str → Bool) (b : Str),
      propsHas (_set st name Variant.nil).1.props b = true →
      (get_setting_with_override active (_set st name Variant.nil).1 b).isSome = true := by
    intro active b hb
    unfold get_setting_with_override
    cases hfo : foGet (_set st name Variant.nil).1.feature_overrides b with
    | none =>
      dsimp only
      unfold propsHas at hb
      obtain ⟨c, hc⟩ := Option.isSome_iff_exists.mp hb
      rw [hc]
      rfl
    | some ov =>
      dsimp only
      rcases scanOverrides_result active (_set st name Variant.nil).1.props ov b with hr | hr
      · rw [hr]
        unfold propsHas at hb
        obtain ⟨c, hc⟩ := Option.isSome_iff_exists.mp hb
        rw [hc]
        rfl
      · unfold propsHas at hr
        obtain ⟨c, hc⟩ := Option.isSome_iff_exists.mp hr
        rw [hc]
        rfl
  refine ⟨hmiss, ?_, ?_, hsome, ?_⟩
  · unfold _set
    rw [if_pos (show Variant.nil.get_type = VType.nil from rfl)]
    exact (queue_state _).2.1
  · intro active l b
    exact scanOverrides_skip active _ name hmiss l b
  · intro active b hnone
    by_contra hb
    rw [Bool.not_eq_false] at hb
    have := hsome active b hb
    rw [hnone] at this
    simp at this

theorem c2_removal_witness :
    propsHas (_set stB (str "a.feat2") Variant.nil).1.props (str "a.feat2") = false ∧
    (_set stB (str "a.feat2") Variant.nil).1.feature_overrides = stB.feature_overrides ∧
    (get_setting_with_override actFeat2 (_set stB (str "a.feat2") Variant.nil).1
      (str "a.feat1")).isSome = true ∧
    propsHas (_set stB (str "a.feat2") Variant.nil).1.props (str "a") = false := by
  have h := c2_removal stB (str "a.feat2")
  exact ⟨h.1, h.2.1, h.2.2.2.1 actFeat2 (str "a.feat1") (by decide),
    h.2.2.2.2 actFeat2 (str "a") rfl⟩

theorem strLt_trans (a : Str) : ∀ b c : Str, strLt a b = true → strLt b c = true →
    strLt a c = true := by
  induction a with
  | nil =>
    intro b c hab hbc
    cases b with
    | nil => cases hab
    | cons y ys =>
      cases c with
      | nil => cases hbc
      | cons z zs => rfl
  | cons x xs ih =>
    intro b c hab hbc
    cases b with
    | nil => cases hab
    | cons y ys =>
      cases c with
      | nil => cases hbc
      | cons z zs =>
        unfold strLt at hab hbc ⊢
        by_cases hxy : x < y
        · by_cases hyz : y < z
          · rw [if_pos (lt_trans hxy hyz)]
          · by_cases hzy : z < y
            · rw [if_neg hyz, if_pos hzy] at hbc
              cases hbc
            · have hyzeq : y = z := le_antisymm (le_of_not_lt hzy) (le_of_not_lt hyz)
              subst hyzeq
              rw [if_pos hxy]
        · by_cases hyx : y < x
          · rw [if_neg hxy, if_pos hyx] at hab
            cases hab
          · have hxyeq : x = y := le_antisymm (le_of_not_lt hyx) (le_of_not_lt hxy)
            subst hxyeq
            rw [if_neg hxy, if_neg hyx] at hab
            by_cases hxz : x < z
            · rw [if_pos hxz]
            · by_cases hzx : z < x
              · rw [if_neg hxz, if_pos hzx] at hbc
                cases hbc
              · rw [if_neg hxz, if_neg hzx] at hbc
                rw [if_neg hxz, if_neg hzx]
                exact ih ys zs hab hbc

theorem strLt_conn (a : Str) : ∀ b : Str, strLt a b = false → strLt b a = false →
    a = b := by
  induction a with
  | nil =>
    intro b hab _
    cases b with
    | nil => rfl
    | cons y ys => cases hab
  | cons x xs ih =>
    intro b hab hba
    cases b with
    | nil => cases hba
    | cons y ys =>
      unfold strLt at hab hba
      by_cases hxy : x < y
      · rw [if_pos hxy] at hab
        cases hab
      · by_cases hyx : y < x
        · rw [if_pos hyx] at hba
          cases hba
        · have hxyeq : x = y := le_antisymm (le_of_not_lt hyx) (le_of_not_lt hxy)
          rw [if_neg hxy, if_neg hyx] at hab
          rw [if_neg hyx, if_neg hxy] at hba
          rw [hxyeq, ih ys hab hba]

theorem vcLt_trans (a b c : _VCSort) (hab : vcLt a b = true) (hbc : vcLt b c = true) :
    vcLt a c = true := by
  unfold vcLt at hab hbc ⊢
  by_cases h1 : a.order = b.order
  · rw [if_pos h1] at hab
    by_cases h2 : b.order = c.order
    · rw [if_pos h2] at hbc
      rw [if_pos (h1.trans h2)]
      exact strLt_trans _ _ _ hab hbc
    · rw [if_neg h2] at hbc
      have hb : b.order < c.order := of_decide_eq_true hbc
      rw [if_neg (by omega)]
      exact decide_eq_true (by omega)
  · rw [if_neg h1] at hab
    have ha : a.order < b.order := of_decide_eq_true hab
    by_cases h2 : b.order = c.order
    · rw [if_neg (by omega)]
      exact decide_eq_true (by omega)
    · rw [if_neg h2] at hbc
      have hb : b.order < c.order := of_decide_eq_true hbc
      rw [if_neg (by omega)]
      exact decide_eq_true (by omega)

theorem vcEq_of_not (a b : _VCSort) (h1 : vcLt a b = false) (h2 : vcLt b a = false) :
    a.order = b.order ∧ a.name = b.name := by
  unfold vcLt at h1 h2
  by_cases ho : a.order = b.order
  · rw [if_pos ho] at h1
    rw [if_pos ho.symm] at h2
    exact ⟨ho, strLt_conn _ _ h1 h2⟩
  · rw [if_neg ho] at h1
    rw [if_neg (fun hh => ho hh.symm)] at h2
    have n1 : ¬ a.order < b.order := by simpa using h1
    have n2 : ¬ b.order < a.order := by simpa using h2
    exact absurd (by omega : a.order = b.order) ho

theorem mem_rbInsert_elim (x : _VCSort) : ∀ (l : List _VCSort) (a : _VCSort),
    a ∈ rbInsert x l → a = x ∨ a ∈ l := by
  intro l
  induction l with
  | nil =>
    intro a h
    rcases List.mem_singleton.mp h with rfl
    exact Or.inl rfl
  | cons y ys ih =>
    intro a h
    unfold rbInsert at h
    split_ifs at h
    · rcases List.mem_cons.mp h with rfl | h2
      · exact Or.inl rfl
      · exact Or.inr h2
    · rcases List.mem_cons.mp h with rfl | h2
      · exact Or.inr (List.mem_cons_self _ _)
      · rcases ih a h2 with rfl | h3
        · exact Or.inl rfl
        · exact Or.inr (List.mem_cons_of_mem _ h3)
    · exact Or.inr h

theorem mem_rbInsert_of_mem (x : _VCSort) : ∀ (l : List _VCSort) (a : _VCSort),
    a ∈ l → a ∈ rbInsert x l := by
  intro l
  induction l with
  | nil => intro a h; cases h
  | cons y ys ih =>
    intro a h
    unfold rbInsert
    split_ifs
    · exact List.mem_cons_of_mem _ h
    · rcases List.mem_cons.mp h with rfl | h2
      · exact List.mem_cons_self _ _
      · exact List.mem_cons_of_mem _ (ih a h2)
    · exact h

theorem mem_rbInsert_self (x : _VCSort) : ∀ l : List _VCSort,
    (∀ y ∈ l, y.name ≠ x.name) → x ∈ rbInsert x l := by
  intro l
  induction l with
  | nil => intro _; exact List.mem_singleton.mpr rfl
  | cons y ys ih =>
    intro hn
    unfold rbInsert
    split_ifs with hlt hgt
    · exact List.mem_cons_self _ _
    · exact List.mem_cons_of_mem _ (ih (fun z hz => hn z (List.mem_cons_of_mem _ hz)))
    · rw [Bool.not_eq_true] at hlt hgt
      exact absurd (vcEq_of_not y x hgt hlt).2 (hn y (List.mem_cons_self _ _))

theorem rbInsert_sorted (x : _VCSort) : ∀ l : List _VCSort,
    l.Pairwise (fun a b => vcLt a b = true) →
    (rbInsert x l).Pairwise (fun a b => vcLt a b = true) := by
  intro l
  induction l with
  | nil => intro _; exact List.pairwise_singleton _ _
  | cons y ys ih =>
    intro h
    have hy := (List.pairwise_cons.mp h).1
    have hys := (List.pairwise_cons.mp h).2
    unfold rbInsert
    split_ifs with hlt hgt
    · refine List.Pairwise.cons ?_ h
      intro z hz
      rcases List.mem_cons.mp hz with rfl | h2
      · exact hlt
      · exact vcLt_trans x y z hlt (hy z h2)
    · refine List.Pairwise.cons ?_ (ih hys)
      intro z hz
      rcases mem_rbInsert_elim x ys z hz with rfl | h2
      · exact hgt
      · exact hy z h2
    · exact h

theorem mkVC_name (hp : List Str) (k : Str) (v : VariantContainer) :
    (mkVC hp k v).name = k := rfl

theorem mkVC_order (hp : List Str) (k : Str) (v : VariantContainer) :
    (mkVC hp k v).order = v.order := rfl

theorem mem_foldl_vcStep (hp : List Str) (props : List (Str × VariantContainer)) :
    ∀ (acc : List _VCSort) (x : _VCSort), x ∈ props.foldl (vcStep hp) acc →
      x ∈ acc ∨ ∃ p ∈ props, p.2.hide_from_editor = false ∧ x = mkVC hp p.1 p.2 := by
  induction props with
  | nil => intro acc x h; exact Or.inl h
  | cons q rest ih =>
    intro acc x h
    rw [List.foldl_cons] at h
    rcases ih _ x h with hacc | ⟨p, hm, hh, rfl⟩
    · unfold vcStep at hacc
      split at hacc
      · exact Or.inl hacc
      · rcases mem_rbInsert_elim _ _ _ hacc with rfl | hacc2
        · rename_i hq
          rw [Bool.not_eq_true] at hq
          exact Or.inr ⟨q, List.mem_cons_self _ _, hq, rfl⟩
        · exact Or.inl hacc2
    · exact Or.inr ⟨p, List.mem_cons_of_mem _ hm, hh, rfl⟩

theorem foldl_vcStep_of_mem_acc (hp : List Str) (props : List (Str × VariantContainer)) :
    ∀ (acc : List _VCSort) (x : _VCSort), x ∈ acc → x ∈ props.foldl (vcStep hp) acc := by
  induction props with
  | nil => intro acc x h; exact h
  | cons q rest ih =>
    intro acc x h
    rw [List.foldl_cons]
    apply ih
    unfold vcStep
    split
    · exact h
    · exact mem_rbInsert_of_mem _ _ _ h

theorem foldl_vcStep_self (hp : List Str) :
    ∀ (props : List (Str × VariantContainer)) (acc : List _VCSort)
      (q : Str × VariantContainer),
      q ∈ props → q.2.hide_from_editor = false →
      (props.map (fun p => p.1)).Nodup →
      (∀ y ∈ acc, y.name ∉ props.map (fun p => p.1)) →
      mkVC hp q.1 q.2 ∈ props.foldl (vcStep hp) acc := by
  intro props
  induction props with
  | nil => intro acc q hq; cases hq
  | cons p rest ih =>
    intro acc q hq hh hnd hacc
    rw [List.map_cons] at hnd
    have hnd2 := List.nodup_cons.mp hnd
    rw [List.foldl_cons]
    rcases List.mem_cons.mp hq with rfl | hq2
    · apply foldl_vcStep_of_mem_acc
      unfold vcStep
      rw [if_neg (by simp [hh])]
      apply mem_rbInsert_self
      intro y hy hname
      exact hacc y hy (by rw [hname, mkVC_name]; exact List.mem_cons_self _ _)
    · apply ih _ q hq2 hh hnd2.2
      intro y hy
      unfold vcStep at hy
      split at hy
      · intro hmem
        exact hacc y hy (List.mem_cons_of_mem _ hmem)
      · rcases mem_rbInsert_elim _ _ _ hy with rfl | hy2
        · rw [mkVC_name]
          exact hnd2.1
        · intro hmem
          exact hacc y hy2 (List.mem_cons_of_mem _ hmem)

theorem foldl_vcStep_sorted (hp : List Str) :
    ∀ (props : List (Str × VariantContainer)) (acc : List _VCSort),
      acc.Pairwise (fun a b => vcLt a b = true) →
      (props.foldl (vcStep hp) acc).Pairwise (fun a b => vcLt a b = true) := by
  intro props
  induction props with
  | nil => intro acc h; exact h
  | cons q rest ih =>
    intro acc h
    rw [List.foldl_cons]
    apply ih
    unfold vcStep
    split
    · exact h
    · exact rbInsert_sorted _ _ h

theorem key_inj (props : List (Str × VariantContainer))
    (hnd : (props.map (fun p => p.1)).Nodup) :
    ∀ p ∈ props, ∀ q ∈ props, p.1 = q.1 → p = q := by
  induction props with
  | nil => intro p hp; cases hp
  | cons r rest ih =>
    intro p hp q hq hpq
    rw [List.map_cons] at hnd
    have hnd2 := List.nodup_cons.mp hnd
    rcases List.mem_cons.mp hp with rfl | hp2
    · rcases List.mem_cons.mp hq with rfl | hq2
      · rfl
      · exact absurd (by rw [hpq]; exact List.mem_map_of_mem _ hq2) hnd2.1
    · rcases List.mem_cons.mp hq with rfl | hq2
      · exact absurd (by rw [← hpq]; exact List.mem_map_of_mem _ hp2) hnd2.1
      · exact ih hnd2.2 p hp2 q hq2 hpq

theorem propsGet_of_mem_nodup (props : List (Str × VariantContainer))
    (hnd : (props.map (fun p => p.1)).Nodup) :
    ∀ p ∈ props, propsGet props p.1 = some p.2 := by
  induction props with
  | nil => intro p hp; cases hp
  | cons q rest ih =>
    intro p hp
    rw [List.map_cons] at hnd
    have hnd2 := List.nodup_cons.mp hnd
    rcases List.mem_cons.mp hp with rfl | hp2
    · unfold propsGet
      rw [List.find?_cons_of_pos _ (by simp)]
      rfl
    · by_cases hq : q.1 = p.1
      · exact absurd (by rw [hq]; exact List.mem_map_of_mem _ hp2) hnd2.1
      · unfold propsGet at ih ⊢
        rw [List.find?_cons_of_neg _ (by simp [hq])]
        exact ih hnd2.2 p hp2

theorem emitOne_name (cpi : List (Str × PropertyInfo)) (e : _VCSort) :
    (emitOne cpi e).name = e.name := by
  unfold emitOne
  split
  all_goals dsimp only
  all_goals split
  all_goals rfl

theorem listKey_of_mem (st : State) (hnd : (st.props.map (fun p => p.1)).Nodup)
    (a : _VCSort) (ha : a ∈ buildVCList st) :
    listKey st (emitOne st.custom_prop_info a) = (a.order, a.name) := by
  rcases mem_foldl_vcStep st.hidden_prefixes st.props [] a ha with hacc | ⟨p, hm, _, rfl⟩
  · cases hacc
  · unfold listKey
    rw [emitOne_name, mkVC_name, mkVC_order]
    rw [propsGet_of_mem_nodup st.props hnd p hm]
    rfl

/-- C10: the ordered enumeration omits every property whose
`hide_from_editor` flag is set (it contributes no entry at all), and emits
the remaining entries sorted by insertion order with the name as tie-break. -/
theorem c10_property_list (st : State)
    (hnd : (st.props.map (fun p => p.1)).Nodup) :
    (∀ p ∈ st.props, p.2.hide_from_editor = true →
      ∀ pi ∈ _get_property_list st, pi.name ≠ p.1) ∧
    (∀ p ∈ st.props, p.2.hide_from_editor = false →
      ∃ pi ∈ _get_property_list st, pi.name = p.1) ∧
    List.Pairwise (fun a b => keyLt (listKey st a) (listKey st b))
      (_get_property_list st) := by
  refine ⟨?_, ?_, ?_⟩
  · intro p hp hhide pi hpi hname
    unfold _get_property_list at hpi
    obtain ⟨e, he, rfl⟩ := List.mem_map.mp hpi
    rcases mem_foldl_vcStep st.hidden_prefixes st.props [] e he with hacc | ⟨q, hq, hqh, rfl⟩
    · cases hacc
    · rw [emitOne_name, mkVC_name] at hname
      have := key_inj st.props hnd p hp q hq hname.symm
      rw [← this] at hqh
      rw [hhide] at hqh
      cases hqh
  · intro p hp hh
    refine ⟨emitOne st.custom_prop_info (mkVC st.hidden_prefixes p.1 p.2), ?_, ?_⟩
    · unfold _get_property_list
      apply List.mem_map_of_mem
      exact foldl_vcStep_self st.hidden_prefixes st.props [] p hp hh hnd
        (fun y hy => absurd hy (List.not_mem_nil y))
    · rw [emitOne_name, mkVC_name]
  · have hsorted : (buildVCList st).Pairwise (fun a b => vcLt a b = true) :=
      foldl_vcStep_sorted st.hidden_prefixes st.props [] List.Pairwise.nil
    unfold _get_property_list
    rw [List.pairwise_map]
    apply hsorted.imp_of_mem
    intro a b ha hb hab
    rw [listKey_of_mem st hnd a ha, listKey_of_mem st hnd b hb]
    unfold vcLt at hab
    by_cases ho : a.order = b.order
    · rw [if_pos ho] at hab
      exact Or.inr ⟨ho, hab⟩
    · rw [if_neg ho] at hab
      exact Or.inl (of_decide_eq_true hab)

theorem c10_property_list_witness :
    List.Pairwise (fun a b => keyLt (listKey c10st a) (listKey c10st b))
      (_get_property_list c10st) := by
  exact (c10_property_list c10st (by decide)).2.2

theorem splitOnChar_ne_nil (c : Char) (s : Str) : splitOnChar c s ≠ [] := by
  induction s with
  | nil => simp [splitOnChar]
  | cons x xs ih =>
    unfold splitOnChar
    split
    · simp
    · cases h : splitOnChar c xs with
      | nil => simp
      | cons hh tt => simp

theorem splitOnChar_msum (c : Char) (s : Str) :
    sumLen (splitOnChar c s) + (splitOnChar c s).length = s.length + 1 := by
  induction s with
  | nil => rfl
  | cons x xs ih =>
    unfold splitOnChar
    by_cases hx : x = c
    · rw [if_pos hx]
      simp only [sumLen, List.map_cons, List.sum_cons, List.length_cons,
        List.length_nil] at ih ⊢
      omega
    · rw [if_neg hx]
      cases h : splitOnChar c xs with
      | nil => exact absurd h (splitOnChar_ne_nil c xs)
      | cons hh tt =>
        rw [h] at ih
        simp only [sumLen, List.map_cons, List.sum_cons, List.length_cons] at ih ⊢
        omega

theorem msum_filter_le (q : Str → Bool) (l : List Str) :
    sumLen (l.filter q) + (l.filter q).length ≤ sumLen l + l.length := by
  induction l with
  | nil => simp
  | cons a rest ih =>
    by_cases ha : q a = true
    · rw [List.filter_cons_of_pos ha]
      simp only [sumLen, List.map_cons, List.sum_cons, List.length_cons] at ih ⊢
      omega
    · rw [List.filter_cons_of_neg (by simp [ha])]
      simp only [sumLen, List.map_cons, List.sum_cons, List.length_cons] at ih ⊢
      omega

theorem msum_drop1 (l : List Str) :
    sumLen (l.drop 1) + (l.drop 1).length ≤ sumLen l + l.length := by
  cases l with
  | nil => simp
  | cons a rest =>
    simp only [List.drop_succ_cons, List.drop_zero, sumLen, List.map_cons,
      List.sum_cons, List.length_cons]
    omega

theorem msum_resolveDots (segs : List Str) :
    ∀ acc : List Str,
      sumLen (resolveDots acc segs) + (resolveDots acc segs).length ≤
        (sumLen acc + acc.length) + (sumLen segs + segs.length) := by
  induction segs with
  | nil =>
    intro acc
    unfold resolveDots
    simp [sumLen, List.sum_reverse]
  | cons seg rest ih =>
    intro acc
    unfold resolveDots
    split
    · refine le_trans (ih (acc.drop 1)) ?_
      have hd := msum_drop1 acc
      simp only [sumLen, List.map_cons, List.sum_cons, List.length_cons] at *
      omega
    · refine le_trans (ih (seg :: acc)) ?_
      simp only [sumLen, List.map_cons, List.sum_cons, List.length_cons]
      omega

theorem joinSegs_len (l : List Str) (hl : l ≠ []) :
    (joinSegs l).length + 1 = sumLen l + l.length := by
  induction l with
  | nil => exact absurd rfl hl
  | cons a rest ih =>
    cases rest with
    | nil => simp [joinSegs, sumLen]
    | cons b t =>
      show (a ++ '/' :: joinSegs (b :: t)).length + 1 = _
      have := ih (by simp)
      simp only [List.length_append, List.length_cons, sumLen, List.map_cons,
        List.sum_cons] at this ⊢
      omega

theorem simplify_length_le (p : Str) : (simplify_path p).length ≤ p.length := by
  unfold simplify_path
  dsimp only
  have hslen : (p.map (fun c => if c = '\\' then '/' else c)).length = p.length :=
    List.length_map _ _
  set s := p.map (fun c => if c = '\\' then '/' else c) with hs
  by_cases habs : isAbsolute s = true
  · rw [if_pos habs]
    cases hc : s with
    | nil => rw [hc] at habs; simp [isAbsolute] at habs
    | cons x xs =>
      have hx : x = '/' := by
        rw [hc] at habs
        simpa [isAbsolute] using habs
      have hfilter : (splitOnChar '/' (x :: xs)).filter
            (fun seg => decide (seg ≠ [] ∧ seg ≠ str ".")) =
          (splitOnChar '/' xs).filter (fun seg => decide (seg ≠ [] ∧ seg ≠ str ".")) := by
        have hsplit : splitOnChar '/' (x :: xs) = [] :: splitOnChar '/' xs := by
          rw [hx]; rfl
        rw [hsplit, List.filter_cons_of_neg (by simp [str])]
      rw [hfilter]
      have hplen : p.length = xs.length + 1 := by
        rw [← hslen, hc]
        simp
      have h1 := splitOnChar_msum '/' xs
      have h2 := msum_filter_le (fun seg => decide (seg ≠ [] ∧ seg ≠ str "."))
        (splitOnChar '/' xs)
      have h3 := msum_resolveDots
        ((splitOnChar '/' xs).filter (fun seg => decide (seg ≠ [] ∧ seg ≠ str "."))) []
      set segs2 := resolveDots []
        ((splitOnChar '/' xs).filter (fun seg => decide (seg ≠ [] ∧ seg ≠ str ".")))
      by_cases hempty : segs2 = []
      · rw [hempty]
        simp only [joinSegs, List.append_nil, List.length_singleton]
        omega
      · have h4 := joinSegs_len segs2 hempty
        simp only [List.length_append, List.length_singleton, sumLen,
          List.length_nil, List.map_nil, List.sum_nil] at *
        omega
  · rw [if_neg habs]
    have h1 := splitOnChar_msum '/' s
    have h2 := msum_filter_le (fun seg => decide (seg ≠ [] ∧ seg ≠ str "."))
      (splitOnChar '/' s)
    have h3 := msum_resolveDots
      ((splitOnChar '/' s).filter (fun seg => decide (seg ≠ [] ∧ seg ≠ str "."))) []
    set segs2 := resolveDots []
      ((splitOnChar '/' s).filter (fun seg => decide (seg ≠ [] ∧ seg ≠ str ".")))
    by_cases hempty : segs2 = []
    · rw [hempty]
      simp [joinSegs]
    · have h4 := joinSegs_len segs2 hempty
      rw [← hslen]
      simp only [List.nil_append, sumLen, List.length_nil, List.map_nil,
        List.sum_nil] at *
      omega

theorem revFind_lt (c : Char) : ∀ (l : Str) (i : Nat), revFind c l = some i → i < l.length := by
  intro l
  induction l with
  | nil => intro i h; cases h
  | cons x xs ih =>
    intro i h
    unfold revFind at h
    split_ifs at h
    · cases h
      simp
    · cases hr : revFind c xs with
      | none => rw [hr] at h; cases h
      | some j =>
        rw [hr] at h
        have hj := ih j hr
        have hij : j + 1 = i := Option.some.inj h
        simp only [List.length_cons]
        omega

theorem rfindChar_lt (c : Char) (s : Str) (i : Nat) (h : rfindChar c s = some i) :
    i < s.length := by
  unfold rfindChar at h
  cases hr : revFind c s.reverse with
  | none => rw [hr] at h; cases h
  | some j =>
    rw [hr] at h
    have hj := revFind_lt c s.reverse j hr
    rw [List.length_reverse] at hj
    have : i = s.length - 1 - j := (Option.some.inj h).symm
    omega

theorem pathJoin_nil (s : Str) (hs : s ≠ []) :
    pathJoin s [] = if s.getLast? = some '/' then s else s ++ ['/'] := by
  unfold pathJoin
  rw [if_neg hs]
  by_cases hl : s.getLast? = some '/'
  · rw [if_pos (Or.inl hl), if_pos hl, List.append_nil]
  · rw [if_neg (by simp [hl]), if_neg hl]

theorem pathJoin_nil_ne (s : Str) (hs : s ≠ []) : pathJoin s [] ≠ [] := by
  rw [pathJoin_nil s hs]
  split
  · exact hs
  · simp

theorem replaceFirst_pref (pat rep s : Str) (hpat : pat ≠ [])
    (hpre : pat.isPrefixOf s = true) : replaceFirst pat rep s = rep ++ s.drop pat.length := by
  cases s with
  | nil =>
    rw [List.isPrefixOf_iff_prefix] at hpre
    rcases hpre with ⟨t, ht⟩
    rcases List.append_eq_nil.mp ht with ⟨h1, _⟩
    exact absurd h1 hpat
  | cons x xs =>
    unfold replaceFirst
    rw [if_pos ⟨hpat, hpre⟩]

theorem localizeGo_ne_nil (rp : Str) (fs : List Str) (hrp : rp ≠ []) (hfs : [] ∉ fs) :
    ∀ (fuel : Nat) (p : Str), p.length < fuel → localizeGo rp fs fuel p ≠ [] := by
  intro fuel
  induction fuel with
  | zero => intro p h; omega
  | succ n ih =>
    intro p hlen
    unfold localizeGo
    by_cases hA : rp = [] ∨ (isAbsolute (simplify_path p) = true ∧
        ¬ begins_with (simplify_path p) rp = true)
    · rw [if_pos hA]
      rcases hA with h | ⟨habs, _⟩
      · exact absurd h hrp
      · intro hnil
        rw [hnil] at habs
        simp [isAbsolute] at habs
    · rw [if_neg hA]
      by_cases hproto : hasProtocol (simplify_path p) = true
      · rw [if_pos hproto]
        intro hnil
        rw [hnil] at hproto
        exact absurd hproto (by decide)
      · rw [if_neg hproto]
        cases hcd : changeDir fs (simplify_path p) with
        | some cwd =>
          dsimp only
          have hmem : simplify_path p ∈ fs := by
            unfold changeDir at hcd
            split at hcd
            · assumption
            · cases hcd
          have hpne : simplify_path p ≠ [] := fun h => hfs (h ▸ hmem)
          split
          · exact hpne
          · rename_i hbeg
            rw [Bool.not_eq_true, Bool.not_eq_false] at hbeg
            have hrpj : pathJoin rp [] ≠ [] := pathJoin_nil_ne rp hrp
            rw [replaceFirst_pref _ _ _ hrpj hbeg]
            simp [str]
        | none =>
          dsimp only
          cases hrf : rfindChar '/' (simplify_path p) with
          | none =>
            dsimp only
            simp [str]
          | some sep =>
            dsimp only
            have hsep : sep < (simplify_path p).length := rfindChar_lt _ _ _ hrf
            have hle := simplify_length_le p
            have hplen : ((simplify_path p).take sep).length < n := by
              rw [List.length_take]
              omega
            have hploc := ih ((simplify_path p).take sep) hplen
            rw [if_neg hploc]
            intro hcontra
            exact hploc (List.append_eq_nil.mp hcontra).1

theorem localize_path_ne_nil (rp : Str) (fs : List Str) (p : Str)
    (hrp : rp ≠ []) (hfs : [] ∉ fs) : localize_path rp fs p ≠ [] :=
  localizeGo_ne_nil rp fs hrp hfs (p.length + 1) p (Nat.lt_succ_self _)

set_option maxRecDepth 40000 in
/-- C3 counterexample: with project root `/my/project` and an empty
filesystem, virtualizing `/my/project/x` makes the recursion reach the
parent `/my`, which lies outside the project root and cannot be
virtualized — yet the call returns the original path unchanged, not the
empty string the claim requires. -/
theorem c3_counterexample :
    localize_path (str "/my/project") [] (str "/my/project/x") =
      str "/my/project/x" ∧
    localize_path (str "/my/project") [] (str "/my/project/x") ≠ [] := by
  exact ⟨by decide, by decide⟩

set_option maxRecDepth 40000 in
/-- C3 (amended): for a path under the project root that does not exist as
a directory, `localize_path` virtualizes the parent recursively and
re-appends the trailing component with exactly one separator, so a
not-yet-created file path under the project root yields a `res://` path;
when the recursion reaches a parent that cannot be virtualized (outside the
project root), that parent is returned unchanged and the trailing
components are re-appended, so the whole call returns the simplified
original path — with a configured project root and no empty directory in
the filesystem the call never returns the empty string. -/
theorem c3_parent_fallback :
    localize_path (str "/my/project") [str "/my/project"]
      (str "/my/project/new/sub/file.txt") = str "res://new/sub/file.txt" ∧
    localize_path (str "/my/project") [] (str "/my/project/x") =
      str "/my/project/x" ∧
    (∀ (rp : Str) (fs : List Str) (p : Str), rp ≠ [] → [] ∉ fs →
      localize_path rp fs p ≠ []) := by
  refine ⟨by decide, by decide, ?_⟩
  intro rp fs p hrp hfs
  exact localize_path_ne_nil rp fs p hrp hfs

set_option maxRecDepth 40000 in
theorem c3_parent_fallback_witness :
    localize_path (str "/my/project") [str "/my/project"]
      (str "/my/project/new/sub/file.txt") = str "res://new/sub/file.txt" ∧
    localize_path (str "/a") [str "/a"] (str "/a/b") ≠ [] := by
  have h := c3_parent_fallback
  exact ⟨h.1, h.2.2 (str "/a") [str "/a"] (str "/a/b") (by decide) (by decide)⟩

theorem mem_joinSegs (c : Char) : ∀ l : List Str, c ∈ joinSegs l →
    c = '/' ∨ ∃ seg ∈ l, c ∈ seg := by
  intro l
  induction l with
  | nil => intro h; cases h
  | cons a rest ih =>
    cases rest with
    | nil => intro h; exact Or.inr ⟨a, List.mem_cons_self _ _, h⟩
    | cons b t =>
      intro h
      rcases List.mem_append.mp h with h1 | h2
      · exact Or.inr ⟨a, List.mem_cons_self _ _, h1⟩
      · rcases List.mem_cons.mp h2 with rfl | h3
        · exact Or.inl rfl
        · rcases ih h3 with h4 | ⟨seg, hs, hc⟩
          · exact Or.inl h4
          · exact Or.inr ⟨seg, List.mem_cons_of_mem _ hs, hc⟩

theorem mem_resolveDots_sub : ∀ (segs acc : List Str) (seg : Str),
    seg ∈ resolveDots acc segs → seg ∈ acc ∨ seg ∈ segs := by
  intro segs
  induction segs with
  | nil =>
    intro acc seg h
    unfold resolveDots at h
    exact Or.inl (List.mem_reverse.mp h)
  | cons a rest ih =>
    intro acc seg h
    unfold resolveDots at h
    split at h
    · rcases ih _ _ h with h1 | h2
      · exact Or.inl (List.drop_subset 1 acc h1)
      · exact Or.inr (List.mem_cons_of_mem _ h2)
    · rcases ih _ _ h with h1 | h2
      · rcases List.mem_cons.mp h1 with rfl | h3
        · exact Or.inr (List.mem_cons_self _ _)
        · exact Or.inl h3
      · exact Or.inr (List.mem_cons_of_mem _ h2)

theorem splitOnChar_cons_eq (c x : Char) (xs : Str) :
    splitOnChar c (x :: xs) =
      if x = c then [] :: splitOnChar c xs
      else
        match splitOnChar c xs with
        | [] => [[x]]
        | h :: t => (x :: h) :: t := rfl

theorem mem_splitOnChar_sub (c : Char) : ∀ (s seg : Str),
    seg ∈ splitOnChar c s → ∀ ch ∈ seg, ch ∈ s := by
  intro s
  induction s with
  | nil =>
    intro seg h ch hch
    rcases List.mem_singleton.mp h with rfl
    cases hch
  | cons x xs ih =>
    intro seg h ch hch
    rw [splitOnChar_cons_eq] at h
    by_cases hx : x = c
    · rw [if_pos hx] at h
      rcases List.mem_cons.mp h with rfl | h2
      · cases hch
      · exact List.mem_cons_of_mem _ (ih seg h2 ch hch)
    · rw [if_neg hx] at h
      cases hr : splitOnChar c xs with
      | nil => exact absurd hr (splitOnChar_ne_nil c xs)
      | cons hh tt =>
        rw [hr] at h
        rcases List.mem_cons.mp h with rfl | h2
        · rcases List.mem_cons.mp hch with rfl | h3
          · exact List.mem_cons_self _ _
          · exact List.mem_cons_of_mem _
              (ih hh (by rw [hr]; exact List.mem_cons_self _ _) ch h3)
        · exact List.mem_cons_of_mem _
            (ih seg (by rw [hr]; exact List.mem_cons_of_mem _ h2) ch hch)

theorem simplify_no_bs (p : Str) : '\\' ∉ simplify_path p := by
  intro hmem
  unfold simplify_path at hmem
  dsimp only at hmem
  rcases List.mem_append.mp hmem with h1 | h2
  · split at h1
    · rcases List.mem_singleton.mp h1 with h
      exact absurd h (by decide)
    · cases h1
  · rcases mem_joinSegs _ _ h2 with h3 | ⟨seg, hs, hc⟩
    · exact absurd h3 (by decide)
    · rcases mem_resolveDots_sub _ [] seg hs with h5 | h5
      · cases h5
      · have h6 := List.mem_of_mem_filter h5
        have h7 := mem_splitOnChar_sub '/' _ seg h6 '\\' hc
        rcases List.mem_map.mp h7 with ⟨a, _, hfa⟩
        by_cases hab : a = '\\'
        · rw [if_pos hab] at hfa
          exact absurd hfa (by decide)
        · rw [if_neg hab] at hfa
          exact hab hfa

theorem replaceAllGo_single_absent (c : Char) (rep : Str) :
    ∀ (fuel : Nat) (s : Str), c ∉ s → replaceAllGo [c] rep fuel s = s := by
  intro fuel
  induction fuel with
  | zero => intro s _; rfl
  | succ n ih =>
    intro s h
    cases s with
    | nil => rfl
    | cons x xs =>
      have hx : ¬ c = x := fun e => h (e ▸ List.mem_cons_self x xs)
      unfold replaceAllGo
      rw [if_neg (by simp [List.isPrefixOf, hx])]
      rw [ih xs (fun hm => h (List.mem_cons_of_mem _ hm))]

theorem replaceAll_single_absent (c : Char) (rep s : Str) (h : c ∉ s) :
    replaceAll [c] rep s = s :=
  replaceAllGo_single_absent c rep s.length s h

theorem replaceAllGo_fuel (pat rep : Str) :
    ∀ (f1 : Nat) (s : Str) (f2 : Nat), s.length ≤ f1 → s.length ≤ f2 →
      replaceAllGo pat rep f1 s = replaceAllGo pat rep f2 s := by
  intro f1
  induction f1 with
  | zero =>
    intro s f2 h1 _
    have hs : s = [] := List.eq_nil_of_length_eq_zero (Nat.le_zero.mp h1)
    subst hs
    cases f2 <;> rfl
  | succ n ih =>
    intro s f2 h1 h2
    cases s with
    | nil => cases f2 <;> rfl
    | cons x xs =>
      cases f2 with
      | zero => simp at h2
      | succ m =>
        unfold replaceAllGo
        by_cases hc : pat ≠ [] ∧ pat.isPrefixOf (x :: xs) = true
        · rw [if_pos hc, if_pos hc]
          congr 1
          have hpos : 0 < pat.length := List.length_pos.mpr hc.1
          have hlen : ((x :: xs).drop pat.length).length ≤ n := by
            simp only [List.length_drop, List.length_cons] at h1 ⊢
            omega
          have hlen2 : ((x :: xs).drop pat.length).length ≤ m := by
            simp only [List.length_drop, List.length_cons] at h2 ⊢
            omega
          exact ih _ m hlen hlen2
        · rw [if_neg hc, if_neg hc]
          congr 1
          exact ih xs m (by simp only [List.length_cons] at h1; omega)
            (by simp only [List.length_cons] at h2; omega)

theorem replaceAll_append_pat (pat rep t : Str) (hpat : pat ≠ []) :
    replaceAll pat rep (pat ++ t) = rep ++ replaceAll pat rep t := by
  unfold replaceAll
  cases hp : pat with
  | nil => exact absurd hp hpat
  | cons a as =>
    have hlen : ((a :: as) ++ t).length = (as.length + t.length) + 1 := by
      simp only [List.length_append, List.length_cons]
      omega
    rw [hlen]
    show replaceAllGo (a :: as) rep ((as.length + t.length) + 1) (a :: (as ++ t)) =
      rep ++ replaceAllGo (a :: as) rep t.length t
    have hpre : (a :: as).isPrefixOf (a :: (as ++ t)) = true := by
      rw [List.isPrefixOf_iff_prefix]
      exact List.prefix_append _ _
    conv_lhs => unfold replaceAllGo
    rw [if_pos ⟨by simp, hpre⟩]
    congr 1
    have hdrop : (a :: (as ++ t)).drop (a :: as).length = t := List.drop_left (a :: as) t
    rw [hdrop]
    exact replaceAllGo_fuel (a :: as) rep (as.length + t.length) t t.length
      (by omega) (le_refl _)

theorem findSub_cons_eq (pat : Str) (x : Char) (xs : Str) :
    findSub pat (x :: xs) =
      if pat.isPrefixOf (x :: xs) then some 0 else (findSub pat xs).map (· + 1) := rfl

theorem containsSub_cons_false (pat : Str) (x : Char) (xs : Str)
    (h : containsSub pat (x :: xs) = false) : containsSub pat xs = false := by
  unfold containsSub at h ⊢
  rw [findSub_cons_eq] at h
  by_cases hpre : pat.isPrefixOf (x :: xs) = true
  · rw [if_pos hpre] at h
    cases h
  · rw [if_neg hpre] at h
    cases hf : findSub pat xs with
    | none => rfl
    | some j => rw [hf] at h; cases h

theorem not_isPrefixOf_of_contains_false (pat : Str) (x : Char) (xs : Str)
    (h : containsSub pat (x :: xs) = false) : ¬ pat.isPrefixOf (x :: xs) = true := by
  intro hpre
  unfold containsSub at h
  rw [findSub_cons_eq, if_pos hpre] at h
  cases h

theorem replaceAllGo_not_contains (pat rep : Str) :
    ∀ (fuel : Nat) (s : Str), containsSub pat s = false → replaceAllGo pat rep fuel s = s := by
  intro fuel
  induction fuel with
  | zero => intro s _; rfl
  | succ n ih =>
    intro s h
    cases s with
    | nil => rfl
    | cons x xs =>
      unfold replaceAllGo
      rw [if_neg (fun hc => not_isPrefixOf_of_contains_false pat x xs h hc.2)]
      rw [ih xs (containsSub_cons_false pat x xs h)]

theorem replaceAll_not_contains (pat rep s : Str) (h : containsSub pat s = false) :
    replaceAll pat rep s = s :=
  replaceAllGo_not_contains pat rep s.length s h

theorem hasProtocol_abs (s : Str) (h : isAbsolute s = true) : hasProtocol s = false := by
  unfold hasProtocol
  cases hf : findSub (str "://") s with
  | none => rfl
  | some k =>
    cases k with
    | zero => rfl
    | succ m =>
      cases s with
      | nil => simp [isAbsolute] at h
      | cons x rest =>
        have hx : x = '/' := by simpa [isAbsolute] using h
        subst hx
        show (decide (0 < m + 1) && (('/' :: rest).take (m + 1)).all isAlnumChar) = false
        rw [List.take_succ_cons, List.all_cons]
        have : isAlnumChar '/' = false := by decide
        simp [this]

theorem isAbsolute_of_pref (rp p : Str) (hrp : rp ≠ []) (ha : isAbsolute rp = true)
    (hpre : rp.isPrefixOf p = true) : isAbsolute p = true := by
  cases rp with
  | nil => exact absurd rfl hrp
  | cons x xs =>
    cases p with
    | nil =>
      rw [List.isPrefixOf_iff_prefix] at hpre
      have := hpre.length_le
      simp at this
    | cons y ys =>
      have hxy : x = y := by
        rw [List.isPrefixOf_iff_prefix] at hpre
        rcases hpre with ⟨t, ht⟩
        have : x :: (xs ++ t) = y :: ys := ht
        exact (List.cons.injEq _ _ _ _ ▸ this).1
      unfold isAbsolute at ha ⊢
      simp only [List.headD_cons] at ha ⊢
      rw [← hxy]
      exact ha

theorem pref_drop_slash (rp p : Str) (hlen : rp.length ≤ p.length)
    (h : (rp ++ ['/']).isPrefixOf (p ++ ['/']) = true) : rp.isPrefixOf p = true := by
  rw [List.isPrefixOf_iff_prefix] at h ⊢
  have htake := List.prefix_iff_eq_take.mp h
  have h1 : rp = (p ++ ['/']).take rp.length := by
    have h2 : (rp ++ ['/']).take rp.length = rp := List.take_left rp ['/']
    calc rp = ((rp ++ ['/']).take rp.length) := h2.symm
    _ = (((p ++ ['/']).take (rp ++ ['/']).length).take rp.length) := by rw [← htake]
    _ = ((p ++ ['/']).take (min rp.length (rp ++ ['/']).length)) := List.take_take _ _ _
    _ = ((p ++ ['/']).take rp.length) := by
        congr 1
        simp
  rw [List.take_append_of_le_length hlen] at h1
  rw [h1]
  exact List.take_prefix _ _

theorem stripTrail_append_slash (s : Str) : stripTrail (s ++ ['/']) = stripTrail s := by
  unfold stripTrail
  rw [List.reverse_append]
  simp [List.dropWhile]

/-- C4 (amended): for every existing, already-simplified path under the
configured project root whose root-relative remainder (with its trailing
separator) contains no occurrence of the marker head `res:/`,
`to_real(to_virtual(p))` returns a path real-equivalent to `p`. -/
theorem c4_round_trip (rp ud p : Str) (fs : List Str)
    (hrp : rp ≠ []) (hrpa : isAbsolute rp = true) (hrpl : rp.getLast? ≠ some '/')
    (hsimp : simplify_path p = p) (hmemfs : p ∈ fs)
    (hunder : (rp ++ ['/']).isPrefixOf (pathJoin p []) = true)
    (hres : containsSub (str "res:/") ((pathJoin p []).drop (rp.length + 1)) = false) :
    realEquiv (globalize_path rp ud (localize_path rp fs p)) p = true := by
  have hpne : p ≠ [] := by
    intro h
    subst h
    have hjn : pathJoin ([] : Str) [] = [] := rfl
    rw [hjn] at hunder
    rw [List.isPrefixOf_iff_prefix] at hunder
    have := hunder.length_le
    simp at this
  have hcw : pathJoin p [] = if p.getLast? = some '/' then p else p ++ ['/'] :=
    pathJoin_nil p hpne
  have hresp : pathJoin rp [] = rp ++ ['/'] := by
    rw [pathJoin_nil rp hrp, if_neg hrpl]
  have hpre_p : rp.isPrefixOf p = true := by
    by_cases hplast : p.getLast? = some '/'
    · have h1 : (rp ++ ['/']).isPrefixOf p = true := by
        have h0 := hunder
        rw [hcw, if_pos hplast] at h0
        exact h0
      rw [List.isPrefixOf_iff_prefix] at h1 ⊢
      exact (List.prefix_append rp ['/']).trans h1
    · have h1 : (rp ++ ['/']).isPrefixOf (p ++ ['/']) = true := by
        have h0 := hunder
        rw [hcw, if_neg hplast] at h0
        exact h0
      have hlen2 : rp.length ≤ p.length := by
        have h2 := (List.isPrefixOf_iff_prefix.mp h1).length_le
        simp at h2
        omega
      exact pref_drop_slash rp p hlen2 h1
  have habs_p : isAbsolute p = true := isAbsolute_of_pref rp p hrp hrpa hpre_p
  have hloc : localize_path rp fs p =
      str "res://" ++ (pathJoin p []).drop (rp.length + 1) := by
    unfold localize_path
    conv_lhs => unfold localizeGo
    rw [hsimp]
    have hcond1 : ¬ (rp = [] ∨ (isAbsolute p = true ∧ ¬ begins_with p rp = true)) := by
      rintro (h | ⟨_, hnb⟩)
      · exact hrp h
      · exact hnb hpre_p
    rw [if_neg hcond1]
    have hcond2 : ¬ hasProtocol p = true := by
      rw [hasProtocol_abs p habs_p]
      simp
    rw [if_neg hcond2]
    have hcd : changeDir fs p = some p := by
      unfold changeDir
      rw [if_pos hmemfs]
    rw [hcd]
    dsimp only
    have hra : replaceAll (str "\\") (str "/") p = p :=
      replaceAll_single_absent '\\' (str "/") p (hsimp ▸ simplify_no_bs p)
    rw [hra, hresp]
    have hbeg : begins_with (pathJoin p []) (rp ++ ['/']) = true := hunder
    rw [if_neg (not_not_intro hbeg)]
    rw [replaceFirst_pref (rp ++ ['/']) (str "res://") (pathJoin p []) (by simp) hunder]
    rw [show (rp ++ ['/']).length = rp.length + 1 from by simp]
  have hglob : globalize_path rp ud
      (str "res://" ++ (pathJoin p []).drop (rp.length + 1)) =
      rp ++ '/' :: (pathJoin p []).drop (rp.length + 1) := by
    set rest := (pathJoin p []).drop (rp.length + 1) with hrest
    unfold globalize_path
    have hbegres : begins_with (str "res://" ++ rest) (str "res://") = true := by
      show (str "res://").isPrefixOf (str "res://" ++ rest) = true
      rw [List.isPrefixOf_iff_prefix]
      exact List.prefix_append _ _
    rw [if_pos hbegres, if_pos hrp]
    rw [show str "res://" ++ rest = str "res:/" ++ ('/' :: rest) from rfl]
    rw [replaceAll_append_pat (str "res:/") rp ('/' :: rest) (by decide)]
    have hcontains : containsSub (str "res:/") ('/' :: rest) = false := by
      unfold containsSub
      rw [findSub_cons_eq]
      have hnp : ¬ (str "res:/").isPrefixOf ('/' :: rest) = true := by
        rw [show str "res:/" = 'r' :: str "es:/" from rfl]
        simp [List.isPrefixOf]
      rw [if_neg hnp]
      have hf : findSub (str "res:/") rest = none := by
        unfold containsSub at hres
        cases hf2 : findSub (str "res:/") rest with
        | none => rfl
        | some j => rw [hf2] at hres; cases hres
      rw [hf]
      rfl
    rw [replaceAll_not_contains (str "res:/") rp ('/' :: rest) hcontains]
  have hdecomp : (rp ++ ['/']) ++ (pathJoin p []).drop (rp.length + 1) = pathJoin p [] := by
    have h1 := List.prefix_iff_eq_take.mp (List.isPrefixOf_iff_prefix.mp hunder)
    rw [show (rp ++ ['/']).length = rp.length + 1 from by simp] at h1
    rw [h1]
    exact List.take_append_drop _ _
  have hfinal : globalize_path rp ud (localize_path rp fs p) = pathJoin p [] := by
    rw [hloc, hglob]
    rw [show rp ++ '/' :: (pathJoin p []).drop (rp.length + 1) =
      (rp ++ ['/']) ++ (pathJoin p []).drop (rp.length + 1) from by simp]
    exact hdecomp
  rw [hfinal, hcw]
  by_cases hplast : p.getLast? = some '/'
  · rw [if_pos hplast]
    unfold realEquiv
    simp
  · rw [if_neg hplast]
    unfold realEquiv
    rw [stripTrail_append_slash]
    simp

set_option maxRecDepth 40000 in
/-- C4 counterexample: `/proj/res:/a` lies under the project root `/proj`
and exists on the filesystem, yet the round trip returns `/proj//proja/`,
not a path real-equivalent to the input: `to_real` replaces every
occurrence of `res:/`, corrupting the interior one. -/
theorem c4_counterexample :
    globalize_path (str "/proj") []
        (localize_path (str "/proj") [str "/proj/res:/a"] (str "/proj/res:/a")) =
      str "/proj//proja/" ∧
    realEquiv
        (globalize_path (str "/proj") []
          (localize_path (str "/proj") [str "/proj/res:/a"] (str "/proj/res:/a")))
        (str "/proj/res:/a") = false := by
  exact ⟨by decide, by decide⟩

set_option maxRecDepth 40000 in
theorem c4_round_trip_witness :
    realEquiv
        (globalize_path (str "/my/project") []
          (localize_path (str "/my/project") [str "/my/project/sub"]
            (str "/my/project/sub")))
        (str "/my/project/sub") = true := by
  exact c4_round_trip (str "/my/project") [] (str "/my/project/sub")
    [str "/my/project/sub"] (by decide) (by decide) (by decide) (by decide)
    (by decide) (by decide) (by decide)

end PS
